import Mathlib

set_option maxRecDepth 100000

/-!
Shallow embedding of the gitqlite version-control engine (object model, hashing,
persistence, staging index, commit construction, status diff, ignore matcher),
with theorems settling the specification claims against the code.

Conventions of the embedding:
* Rust byte buffers and strings are `List Nat` (byte values; all concrete
  data used here is ASCII).
* Filesystem paths are `List (List Nat)`: the list of path segments of an
  absolute path (`/repo/dir` is `[[r,e,p,o],[d,i,r]]`).
* `HashMap`/`BTreeMap` are association lists; `HashMap` iteration is
  determinized to insertion order (the Rust iteration order is unspecified;
  every concrete run proved below is insensitive to that order).
* Fallible or panicking code paths return `Option` (`none` models a panic
  or error).
* All recursion is structural (fuel-indexed where the source loops), so the
  kernel can evaluate every definition on concrete input.
-/

namespace Gitqlite

/-! ## SHA-1 (the `sha1` crate), over byte lists -/

def w32 : Nat := 4294967296

def rotl (n x : Nat) : Nat :=
  ((x <<< n) ||| (x >>> (32 - n))) % w32

/-- Big-endian bytes (most significant first) of a 32-bit word. -/
def wordBytes (x : Nat) : List Nat :=
  [(x >>> 24) % 256, (x >>> 16) % 256, (x >>> 8) % 256, x % 256]

/-- Combine 4 big-endian bytes into a 32-bit word. -/
def bytesToWord (a b c d : Nat) : Nat :=
  ((a <<< 24) ||| (b <<< 16) ||| (c <<< 8) ||| d)

/-- Split a list into 64-byte chunks; the first argument is structural fuel. -/
def chunks64 : Nat → List Nat → List (List Nat)
  | _, [] => []
  | 0, _ => []
  | fuel + 1, xs => xs.take 64 :: chunks64 fuel (xs.drop 64)

/-- A 64-byte block as 16 big-endian 32-bit words. -/
def blockWords : List Nat → List Nat
  | a :: b :: c :: d :: rest => bytesToWord a b c d :: blockWords rest
  | _ => []

/-- SHA-1 padding: append 0x80, zero bytes, and the 64-bit big-endian bit length,
to a multiple of 64 bytes. -/
def sha1Pad (msg : List Nat) : List Nat :=
  let len := msg.length
  let lenBits := len * 8
  let zeros := (64 - ((len + 9) % 64)) % 64
  msg ++ [128] ++ List.replicate zeros 0 ++
    [(lenBits >>> 56) % 256, (lenBits >>> 48) % 256, (lenBits >>> 40) % 256,
     (lenBits >>> 32) % 256, (lenBits >>> 24) % 256, (lenBits >>> 16) % 256,
     (lenBits >>> 8) % 256, lenBits % 256]

/-- Message schedule: extend the 16 block words to 80. -/
def sha1Schedule : Nat → List Nat → List Nat
  | 0, w => w
  | n + 1, w =>
    let j := w.length
    let x := rotl 1 (((w.getD (j - 3) 0).xor (w.getD (j - 8) 0)).xor
      ((w.getD (j - 14) 0).xor (w.getD (j - 16) 0)))
    sha1Schedule n (w ++ [x])

def sha1F (t b c d : Nat) : Nat :=
  if t < 20 then (b &&& c) ||| ((b ^^^ 4294967295) &&& d)
  else if t < 40 then b ^^^ c ^^^ d
  else if t < 60 then (b &&& c) ||| (b &&& d) ||| (c &&& d)
  else b ^^^ c ^^^ d

def sha1K (t : Nat) : Nat :=
  if t < 20 then 1518500249
  else if t < 40 then 1859775393
  else if t < 60 then 2400959708
  else 3395469782

/-- The 80 compression rounds; the first argument is remaining fuel, `t = 80 - fuel`. -/
def sha1Rounds : Nat → Nat → List Nat → Nat × Nat × Nat × Nat × Nat →
    Nat × Nat × Nat × Nat × Nat
  | 0, _, _, st => st
  | fuel + 1, t, w, (a, b, c, d, e) =>
    let tmp := (rotl 5 a + sha1F t b c d + e + sha1K t + w.getD t 0) % w32
    sha1Rounds fuel (t + 1) w (tmp, a, rotl 30 b, c, d)

def sha1Block (h : Nat × Nat × Nat × Nat × Nat) (block : List Nat) :
    Nat × Nat × Nat × Nat × Nat :=
  let (h0, h1, h2, h3, h4) := h
  let w := sha1Schedule 64 (blockWords block)
  let (a, b, c, d, e) := sha1Rounds 80 0 w (h0, h1, h2, h3, h4)
  ((h0 + a) % w32, (h1 + b) % w32, (h2 + c) % w32, (h3 + d) % w32, (h4 + e) % w32)

/-- SHA-1 digest (20 bytes) of a byte list. -/
def sha1 (msg : List Nat) : List Nat :=
  let padded := sha1Pad msg
  let blocks := chunks64 padded.length padded
  let (h0, h1, h2, h3, h4) := blocks.foldl sha1Block
    (1732584193, 4023233417, 2562383102, 271733878, 3285377520)
  wordBytes h0 ++ wordBytes h1 ++ wordBytes h2 ++ wordBytes h3 ++ wordBytes h4

/-! ## Shared byte-list utilities -/

/-- Join byte-lists with a separator byte, no trailing separator
(`encode_entries` joins with a newline before every entry except the first). -/
def joinSep (sep : Nat) : List (List Nat) → List Nat
  | [] => []
  | [x] => x
  | x :: y :: xs => x ++ sep :: joinSep sep (y :: xs)

/-- Decimal digits of a natural number (`u32::to_string`); fuel-indexed. -/
def natToDecAux : Nat → Nat → List Nat
  | 0, _ => []
  | fuel + 1, n => if n < 10 then [48 + n] else natToDecAux fuel (n / 10) ++ [48 + n % 10]

def natToDec (n : Nat) : List Nat := natToDecAux (n + 1) n

/-- Lowercase hex digit character code of a value below 16 (`format!` with 02x). -/
def hexDigit (n : Nat) : Nat := if n < 10 then 48 + n else 87 + n

/-- Two lowercase hex characters of one byte. -/
def byteHex (b : Nat) : List Nat := [hexDigit (b / 16), hexDigit (b % 16)]

/-- First-match association-list lookup (models `HashMap::get` / `BTreeMap::get`). -/
def alLookup {β : Type} (l : List (List Nat × β)) (k : List Nat) : Option β :=
  match l with
  | [] => none
  | (k', v) :: rest => if k' = k then some v else alLookup rest k

/-- Remove the first binding of a key (models `BTreeMap::remove`). -/
def alRemove {β : Type} (l : List (List Nat × β)) (k : List Nat) : List (List Nat × β) :=
  match l with
  | [] => []
  | (k', v) :: rest => if k' = k then rest else (k', v) :: alRemove rest k

end Gitqlite

namespace GitModel

/-! ## `src/git/model.rs`: object model and hashing

`Sha1Id` is the 20-byte digest (`Sha1Id([u8; 20])`). The identity lifecycle
(`Blob<NoId>` vs `Blob<Sha1Id>`) is embedded as separate structures: the
unidentified form carries no id field, the identified form carries one. -/

structure Sha1Id where
  bytes : List Nat
  deriving DecidableEq, Repr

open Gitqlite

/-- Hex display of a `Sha1Id` (`Display for Sha1Id`: each byte as two lowercase
hex characters, joined). -/
def Sha1Id.hex (id : Sha1Id) : List Nat := id.bytes.flatMap byteHex

/-- `TreeEntryType`, displayed as "blob" / "tree". -/
inductive TreeEntryType where
  | blob
  | tree
  deriving DecidableEq, Repr

/-- Byte string of `TreeEntryType::as_str`: "blob" or "tree". -/
def TreeEntryType.str : TreeEntryType → List Nat
  | .blob => [98, 108, 111, 98]
  | .tree => [116, 114, 101, 101]

structure TreeEntry where
  type_ : TreeEntryType
  id : Sha1Id
  mode : List Nat
  name : List Nat
  deriving DecidableEq, Repr

/-- An unidentified tree (`Tree<NoId>`). -/
structure Tree where
  entries : List TreeEntry
  deriving DecidableEq, Repr

/-- An identified tree (`Tree<Sha1Id>`). -/
structure TreeWithId where
  tree_id : Sha1Id
  entries : List TreeEntry
  deriving DecidableEq, Repr

/-- One line of `Tree::encode_entries`:
`write!("{} {} {} {}", entry.mode, type_, entry.id, entry.name)`,
where the id displays as 40 lowercase hex characters. -/
def encodeEntryLine (e : TreeEntry) : List Nat :=
  e.mode ++ 32 :: (e.type_.str ++ 32 :: (e.id.hex ++ 32 :: e.name))

/-- `Tree::encode_entries`: entry lines in stored order, a newline written
before every entry except the first (newline-joined, no trailing separator). -/
def Tree.encode_entries (t : Tree) : List Nat :=
  joinSep 10 (t.entries.map encodeEntryLine)

/-- `Hashable for Tree<ID>`: digest of `encode_entries` (no sorting here;
`do_commit` sorts the entries before constructing the tree). -/
def Tree.hash (t : Tree) : Sha1Id := ⟨sha1 t.encode_entries⟩

/-- `Tree::new` then `Tree::with_id(id)` (the id is supplied by the caller). -/
def Tree.with_id (t : Tree) (id : Sha1Id) : TreeWithId := ⟨id, t.entries⟩

/-- An unidentified commit (`Commit<NoId>`). -/
structure Commit where
  tree_id : Sha1Id
  parent_ids : List Sha1Id
  author_name : List Nat
  author_email : List Nat
  committer_name : List Nat
  committer_email : List Nat
  message : List Nat
  deriving DecidableEq, Repr

/-- An identified commit (`Commit<Sha1Id>`). -/
structure CommitWithId where
  commit_id : Sha1Id
  tree_id : Sha1Id
  parent_ids : List Sha1Id
  author_name : List Nat
  author_email : List Nat
  committer_name : List Nat
  committer_email : List Nat
  message : List Nat
  deriving DecidableEq, Repr

/-- `sha1::Sha1` hasher state: the bytes accumulated by successive `update` calls. -/
abbrev Hasher := List Nat

def Hasher.new : Hasher := []

def Hasher.update (h : Hasher) (bs : List Nat) : Hasher := h ++ bs

/-- The byte sequence fed to the hasher by `Hashable for Commit<ID>`:
`update(tree_id.0); update("\n")`; per parent `update(parent.0); update("\n")`;
`update(author_name); update(" "); update(author_email); update("\n")`;
`update(committer_name); update(" "); update(committer_email); update("\n\n")`;
`update(message); update("\n")`. Note `tree_id.0` and `parent.0` are the raw
20 digest bytes, not hex. -/
def Commit.hashInput (c : Commit) : List Nat :=
  let h := Hasher.new
  let h := h.update c.tree_id.bytes
  let h := h.update [10]
  let h := c.parent_ids.foldl (fun h p => (h.update p.bytes).update [10]) h
  let h := h.update c.author_name
  let h := h.update [32]
  let h := h.update c.author_email
  let h := h.update [10]
  let h := h.update c.committer_name
  let h := h.update [32]
  let h := h.update c.committer_email
  let h := h.update [10, 10]
  let h := h.update c.message
  h.update [10]

/-- `Hashable for Commit<ID>`: finalize the accumulated bytes. -/
def Commit.hash (c : Commit) : Sha1Id := ⟨sha1 c.hashInput⟩

/-- `Commit::with_id(id)` (the id is supplied by the caller). -/
def Commit.with_id (c : Commit) (id : Sha1Id) : CommitWithId :=
  ⟨id, c.tree_id, c.parent_ids, c.author_name, c.author_email,
   c.committer_name, c.committer_email, c.message⟩

/-- An unidentified blob (`Blob<NoId>`). -/
structure Blob where
  data : List Nat
  deriving DecidableEq, Repr

/-- An identified blob (`Blob<Sha1Id>`). -/
structure BlobWithId where
  blob_id : Sha1Id
  data : List Nat
  deriving DecidableEq, Repr

/-- `Hashable for Blob<ID>`: digest of the raw data. -/
def Blob.hash (b : Blob) : Sha1Id := ⟨sha1 b.data⟩

/-- `Blob::with_id(id)` (the id is supplied by the caller). -/
def Blob.with_id (b : Blob) (id : Sha1Id) : BlobWithId := ⟨id, b.data⟩

/-- The commit encoding as the specification words it ("`tree_id \n` then one
`parent_id \n` per parent in input order, then `<author_name> <author_email>\n`,
then `<committer_name> ` then `<committer_email>` then `\n\n`, then `message`,
then `\n`"), written as one concatenation. Used to compare against
`Commit.hashInput`, which follows the code's sequential updates. -/
def specCommitEncoding (c : Commit) : List Nat :=
  c.tree_id.bytes ++ [10] ++ (c.parent_ids.flatMap fun p => p.bytes ++ [10]) ++
    c.author_name ++ [32] ++ c.author_email ++ [10] ++
    c.committer_name ++ [32] ++ c.committer_email ++ [10, 10] ++
    c.message ++ [10]

end GitModel

namespace GitModel

open Gitqlite

/-! ## Claim C7: commit encoding -/

theorem parents_foldl_eq_flatMap (l : List Sha1Id) (h : Hasher) :
    l.foldl (fun h p => (Hasher.update (Hasher.update h p.bytes) [10])) h =
      h ++ l.flatMap (fun p => p.bytes ++ [10]) := by
  induction l generalizing h with
  | nil => simp
  | cons p rest ih =>
    rw [List.foldl_cons, ih]
    simp [Hasher.update]

theorem hashInput_eq_specCommitEncoding (c : Commit) :
    c.hashInput = specCommitEncoding c := by
  simp only [Commit.hashInput, specCommitEncoding]
  rw [parents_foldl_eq_flatMap]
  simp [Hasher.update, Hasher.new]

/-- The 21-byte parent chunks (20 digest bytes plus a newline) are injective
on lists of well-formed (20-byte) ids. -/
theorem parents_flatMap_inj : ∀ (l1 l2 : List Sha1Id),
    (∀ p ∈ l1, p.bytes.length = 20) → (∀ p ∈ l2, p.bytes.length = 20) →
    (l1.flatMap fun p => p.bytes ++ [10]) = (l2.flatMap fun p => p.bytes ++ [10]) →
    l1 = l2 := by
  intro l1
  induction l1 with
  | nil =>
    intro l2 _ h2 heq
    cases l2 with
    | nil => rfl
    | cons q qs =>
      exfalso
      simp only [List.flatMap_nil, List.flatMap_cons] at heq
      have : q.bytes.length = 20 := h2 q (by simp)
      have hlen := congrArg List.length heq
      simp [this] at hlen
      omega
  | cons p ps ih =>
    intro l2 h1 h2 heq
    cases l2 with
    | nil =>
      exfalso
      simp only [List.flatMap_nil, List.flatMap_cons] at heq
      have : p.bytes.length = 20 := h1 p (by simp)
      have hlen := congrArg List.length heq
      simp [this] at hlen
    | cons q qs =>
      simp only [List.flatMap_cons, List.append_assoc] at heq
      have hp : p.bytes.length = 20 := h1 p (by simp)
      have hq : q.bytes.length = 20 := h2 q (by simp)
      have := List.append_inj heq (by rw [hp, hq])
      obtain ⟨hb, ht⟩ := this
      have hps : ps = qs := by
        apply ih qs (fun x hx => h1 x (by simp [hx])) (fun x hx => h2 x (by simp [hx]))
        simpa using ht
      have : p = q := by
        cases p; cases q; simp_all
      rw [this, hps]

end GitModel

namespace GitModel

open Gitqlite

/-- Concrete 20-byte ids and commits used in the claim instances. -/
def idOnes : Sha1Id := ⟨List.replicate 20 1⟩

def pDup : Sha1Id := ⟨List.replicate 20 2⟩

def qDistinct : Sha1Id := ⟨List.replicate 20 3⟩

/-- A commit whose two parents are the same id. -/
def commitDupParents : Commit :=
  ⟨idOnes, [pDup, pDup], [97], [98], [97], [98], [109]⟩

/-- A commit with two distinct parents. -/
def commitPQ : Commit :=
  ⟨idOnes, [pDup, qDistinct], [97], [98], [97], [98], [109]⟩

/-- Claim C7, counterexample: for the commit whose parent list is `[p, p]`,
changing the order of the parent list (reversing it) does not change the
resulting hash, against the claim's "changing the order of the parent list
changes the resulting hash". -/
theorem commit_hash_parent_reorder_noop :
    Commit.hash { commitDupParents with parent_ids := commitDupParents.parent_ids.reverse } =
      Commit.hash commitDupParents := by
  rfl

/-- Claim C7, amended: the commit hash digests exactly the byte sequence
`tree_id \n`, each `parent_id \n` in input order, `author_name SP author_email \n`,
`committer_name SP committer_email \n\n`, `message \n`; commits with identical
fields hash identically (the hash is a function of the encoding); and replacing
the parent list by a different list of well-formed 20-byte ids changes the
hashed byte sequence (for the concrete swap of two distinct parents, the
digests themselves differ). A reordering that leaves the parent list unchanged
(duplicate parents) leaves the hash unchanged. -/
theorem commit_encoding_exact_and_parent_order :
    (∀ c : Commit, c.hashInput = specCommitEncoding c) ∧
    (∀ (c : Commit) (l' : List Sha1Id),
      (∀ p ∈ c.parent_ids, p.bytes.length = 20) →
      (∀ p ∈ l', p.bytes.length = 20) →
      l' ≠ c.parent_ids →
      Commit.hashInput { c with parent_ids := l' } ≠ c.hashInput) ∧
    Commit.hash { commitPQ with parent_ids := [qDistinct, pDup] } ≠ Commit.hash commitPQ := by
  refine ⟨hashInput_eq_specCommitEncoding, ?_, by decide⟩
  intro c l' h1 h2 hne heq
  rw [hashInput_eq_specCommitEncoding, hashInput_eq_specCommitEncoding] at heq
  simp only [specCommitEncoding, List.append_assoc] at heq
  have h3 := List.append_cancel_left heq
  have h4 := List.append_cancel_left h3
  have h5 := List.append_cancel_right h4
  exact hne (parents_flatMap_inj l' c.parent_ids h2 h1 h5)

/-- Witness for `commit_encoding_exact_and_parent_order`: instantiating the
middle conjunct at `commitPQ` and the empty replacement parent list. -/
theorem commit_encoding_exact_and_parent_order_witness :
    Commit.hashInput { commitPQ with parent_ids := ([] : List Sha1Id) } ≠
      Commit.hashInput commitPQ :=
  commit_encoding_exact_and_parent_order.2.1 commitPQ []
    (by decide) (by decide) (by decide)

end GitModel

namespace GitModel

open Gitqlite

/-! ## Claim C3: tree encoding, canonical sorting, injectivity

`do_commit` sorts a directory's entries with `sort_by(|e1, e2| e1.name().cmp(e2.name()))`
(byte-lexicographic on names) before building the tree. Rust's `sort_by` is a
stable sort; a stable sort is uniquely determined by the comparator, so it is
embedded as stable insertion sort. -/

/-- Byte-lexicographic `<=` on byte strings (`str::cmp` is byte-lexicographic). -/
def nameLe : List Nat → List Nat → Bool
  | [], _ => true
  | _ :: _, [] => false
  | x :: xs, y :: ys => if x < y then true else if y < x then false else nameLe xs ys

theorem nameLe_total : ∀ a b, nameLe a b = true ∨ nameLe b a = true := by
  intro a
  induction a with
  | nil => intro b; left; rfl
  | cons x xs ih =>
    intro b
    cases b with
    | nil => right; rfl
    | cons y ys =>
      simp only [nameLe]
      rcases Nat.lt_trichotomy x y with h | h | h
      · left; simp [h]
      · subst h
        rcases ih ys with h2 | h2 <;> simp [h2, Nat.lt_irrefl]
      · right; simp [h, Nat.lt_asymm h]

theorem nameLe_antisymm : ∀ a b, nameLe a b = true → nameLe b a = true → a = b := by
  intro a
  induction a with
  | nil =>
    intro b _ hba
    cases b with
    | nil => rfl
    | cons y ys => simp [nameLe] at hba
  | cons x xs ih =>
    intro b hab hba
    cases b with
    | nil => simp [nameLe] at hab
    | cons y ys =>
      simp only [nameLe] at hab hba
      rcases Nat.lt_trichotomy x y with h | h | h
      · simp [h, Nat.lt_asymm h] at hba
      · subst h
        simp [Nat.lt_irrefl] at hab hba
        rw [ih ys hab hba]
      · simp [h, Nat.lt_asymm h] at hab

theorem nameLe_trans : ∀ a b c, nameLe a b = true → nameLe b c = true →
    nameLe a c = true := by
  intro a
  induction a with
  | nil => intro b c _ _; rfl
  | cons x xs ih =>
    intro b c hab hbc
    cases b with
    | nil => simp [nameLe] at hab
    | cons y ys =>
      cases c with
      | nil => simp [nameLe] at hbc
      | cons z zs =>
        simp only [nameLe] at hab hbc ⊢
        rcases Nat.lt_trichotomy x y with h1 | h1 | h1
        · rcases Nat.lt_trichotomy y z with h2 | h2 | h2
          · simp [Nat.lt_trans h1 h2]
          · subst h2; simp [h1]
          · simp [h2, Nat.lt_asymm h2] at hbc
        · subst h1
          rcases Nat.lt_trichotomy x z with h2 | h2 | h2
          · simp [h2]
          · subst h2
            simp [Nat.lt_irrefl] at hab hbc ⊢
            exact ih ys zs hab hbc
          · simp [h2, Nat.lt_asymm h2] at hbc
        · simp [h1, Nat.lt_asymm h1] at hab

/-- Entry comparator of `do_commit`: compare names. -/
def entLe (e1 e2 : TreeEntry) : Bool := nameLe e1.name e2.name

/-- Stable insertion of one entry: it goes after every entry that compares
less-or-equal to it (a stable sort keeps the original relative order of
name-equal entries). -/
def insEnt (x : TreeEntry) : List TreeEntry → List TreeEntry
  | [] => [x]
  | y :: ys => if entLe y x then y :: insEnt x ys else x :: y :: ys

/-- Stable sort by entry name (determinizes Rust's stable `sort_by`). -/
def sortEntries (l : List TreeEntry) : List TreeEntry := l.foldr insEnt []

theorem insEnt_perm (x : TreeEntry) : ∀ l, (insEnt x l).Perm (x :: l) := by
  intro l
  induction l with
  | nil => simp [insEnt]
  | cons y ys ih =>
    simp only [insEnt]
    split
    · exact ((ih.cons y).trans (List.Perm.swap x y ys)).symm.symm
    · exact List.Perm.refl _

theorem sortEntries_perm (l : List TreeEntry) : (sortEntries l).Perm l := by
  induction l with
  | nil => simp [sortEntries]
  | cons x xs ih =>
    have : sortEntries (x :: xs) = insEnt x (sortEntries xs) := rfl
    rw [this]
    exact (insEnt_perm x (sortEntries xs)).trans (ih.cons x)

theorem insEnt_sorted (x : TreeEntry) : ∀ l, List.Pairwise (entLe · · = true) l →
    List.Pairwise (entLe · · = true) (insEnt x l) := by
  intro l
  induction l with
  | nil => intro _; simp [insEnt]
  | cons y ys ih =>
    intro hp
    rcases hp with - | ⟨hy, hys⟩
    simp only [insEnt]
    split
    · rename_i hyx
      refine List.Pairwise.cons ?_ (ih hys)
      intro z hz
      have hz' := (insEnt_perm x ys).mem_iff.mp hz
      rcases List.mem_cons.mp hz' with rfl | hz''
      · exact hyx
      · exact hy z hz''
    · rename_i hyx
      have hxy : entLe x y = true := by
        rcases nameLe_total x.name y.name with h | h
        · exact h
        · exact absurd h hyx
      refine List.Pairwise.cons ?_ (List.Pairwise.cons hy hys)
      intro z hz
      rcases List.mem_cons.mp hz with rfl | hz'
      · exact hxy
      · exact nameLe_trans _ _ _ hxy (hy z hz')

theorem sortEntries_sorted (l : List TreeEntry) :
    List.Pairwise (entLe · · = true) (sortEntries l) := by
  induction l with
  | nil => simp [sortEntries]
  | cons x xs ih => exact insEnt_sorted x (sortEntries xs) ih

/-- Two name-sorted lists that are permutations of one another and have
pairwise-distinct names are equal. -/
theorem sorted_perm_eq : ∀ l1 l2 : List TreeEntry, l1.Perm l2 →
    List.Pairwise (entLe · · = true) l1 → List.Pairwise (entLe · · = true) l2 →
    List.Pairwise (fun a b => a.name ≠ b.name) l1 → l1 = l2 := by
  intro l1
  induction l1 with
  | nil => intro l2 hp _ _ _; exact hp.nil_eq
  | cons x xs ih =>
    intro l2 hp s1 s2 nd
    cases l2 with
    | nil => exact absurd hp.symm.nil_eq (by simp)
    | cons y ys =>
      by_cases hxy : x = y
      · subst hxy
        rw [ih ys (hp.cons_inv) s1.of_cons s2.of_cons nd.of_cons]
      · exfalso
        have hx2 : x ∈ y :: ys := hp.mem_iff.mp (by simp)
        have hxys : x ∈ ys := by
          rcases List.mem_cons.mp hx2 with h | h
          · exact absurd h hxy
          · exact h
        have hy1 : y ∈ x :: xs := hp.mem_iff.mpr (by simp)
        have hyxs : y ∈ xs := by
          rcases List.mem_cons.mp hy1 with h | h
          · exact absurd h.symm hxy
          · exact h
        have h1 : entLe x y = true := List.rel_of_pairwise_cons s1 hyxs
        have h2 : entLe y x = true := List.rel_of_pairwise_cons s2 hxys
        have : x.name = y.name := nameLe_antisymm _ _ h1 h2
        exact List.rel_of_pairwise_cons nd hyxs this

end GitModel

namespace Gitqlite

/-- Splitting at the first occurrence of a separator is unambiguous. -/
theorem split_first_sep (sep : Nat) : ∀ a b r s : List Nat, sep ∉ a → sep ∉ b →
    a ++ sep :: r = b ++ sep :: s → a = b ∧ r = s := by
  intro a
  induction a with
  | nil =>
    intro b r s _ hb heq
    cases b with
    | nil => simpa using heq
    | cons y ys =>
      exfalso
      simp only [List.nil_append, List.cons_append, List.cons.injEq] at heq
      exact hb (heq.1 ▸ List.mem_cons_self y ys)
  | cons x xs ih =>
    intro b r s ha hb heq
    cases b with
    | nil =>
      exfalso
      simp only [List.cons_append, List.nil_append, List.cons.injEq] at heq
      exact ha (heq.1 ▸ List.mem_cons_self x xs)
    | cons y ys =>
      simp only [List.cons_append, List.cons.injEq] at heq
      obtain ⟨rfl, heq2⟩ := heq
      have := ih ys r s (fun h => ha (List.mem_cons_of_mem _ h))
        (fun h => hb (List.mem_cons_of_mem _ h)) heq2
      exact ⟨by rw [this.1], this.2⟩

/-- `joinSep` is injective on lists of nonempty separator-free chunks. -/
theorem joinSep_inj (sep : Nat) : ∀ L1 L2 : List (List Nat),
    (∀ l ∈ L1, l ≠ [] ∧ sep ∉ l) → (∀ l ∈ L2, l ≠ [] ∧ sep ∉ l) →
    joinSep sep L1 = joinSep sep L2 → L1 = L2 := by
  intro L1
  induction L1 with
  | nil =>
    intro L2 _ h2 heq
    cases L2 with
    | nil => rfl
    | cons z zs =>
      exfalso
      cases zs with
      | nil =>
        exact (h2 z (by simp)).1 (by simpa [joinSep] using heq.symm)
      | cons w ws =>
        simp only [joinSep] at heq
        have hlen := congrArg List.length heq
        simp at hlen
        omega
  | cons x xs ih =>
    intro L2 h1 h2 heq
    cases L2 with
    | nil =>
      exfalso
      cases xs with
      | nil =>
        exact (h1 x (by simp)).1 (by simpa [joinSep] using heq)
      | cons w ws =>
        simp only [joinSep] at heq
        have hx := (h1 x (by simp)).1
        cases x with
        | nil => exact hx rfl
        | cons _ _ => simp at heq
    | cons z zs =>
      cases xs with
      | nil =>
        cases zs with
        | nil => simpa [joinSep] using heq
        | cons w ws =>
          exfalso
          simp only [joinSep] at heq
          have : sep ∈ x := heq ▸ (by simp : sep ∈ z ++ sep :: joinSep sep (w :: ws))
          exact (h1 x (by simp)).2 this
      | cons y ys =>
        cases zs with
        | nil =>
          exfalso
          simp only [joinSep] at heq
          have : sep ∈ z := heq ▸ (by simp : sep ∈ x ++ sep :: joinSep sep (y :: ys))
          exact (h2 z (by simp)).2 this
        | cons w ws =>
          simp only [joinSep] at heq
          have hsplit := split_first_sep sep x z _ _
            (h1 x (by simp)).2 (h2 z (by simp)).2 heq
          have htail := ih (w :: ws) (fun l hl => h1 l (List.mem_cons_of_mem _ hl))
            (fun l hl => h2 l (List.mem_cons_of_mem _ hl)) hsplit.2
          rw [hsplit.1, htail]

end Gitqlite

namespace Gitqlite

theorem hexDigit_not_sep {n : Nat} (h : n < 16) : hexDigit n ≠ 10 ∧ hexDigit n ≠ 32 := by
  unfold hexDigit
  split <;> omega

theorem hexDigit_inj {m n : Nat} (hm : m < 16) (hn : n < 16)
    (h : hexDigit m = hexDigit n) : m = n := by
  unfold hexDigit at h
  split at h <;> split at h <;> omega

theorem byteHex_not_sep {b : Nat} (h : b < 256) : 10 ∉ byteHex b ∧ 32 ∉ byteHex b := by
  have h1 := hexDigit_not_sep (n := b / 16) (by omega)
  have h2 := hexDigit_not_sep (n := b % 16) (by omega)
  simp [byteHex]
  exact ⟨⟨fun h => absurd h.symm h1.1, fun h => absurd h.symm h2.1⟩,
    ⟨fun h => absurd h.symm h1.2, fun h => absurd h.symm h2.2⟩⟩

theorem byteHex_inj {a b : Nat} (ha : a < 256) (hb : b < 256)
    (h : byteHex a = byteHex b) : a = b := by
  simp only [byteHex, List.cons.injEq, and_true] at h
  have h1 := hexDigit_inj (m := a / 16) (n := b / 16) (by omega) (by omega) h.1
  have h2 := hexDigit_inj (m := a % 16) (n := b % 16) (by omega) (by omega) h.2
  omega

theorem flatMap_byteHex_len : ∀ l : List Nat, (l.flatMap byteHex).length = 2 * l.length := by
  intro l
  induction l with
  | nil => rfl
  | cons b bs ih => simp [byteHex, ih]; omega

theorem flatMap_byteHex_not_sep : ∀ l : List Nat, (∀ b ∈ l, b < 256) →
    10 ∉ l.flatMap byteHex ∧ 32 ∉ l.flatMap byteHex := by
  intro l
  induction l with
  | nil => simp
  | cons b bs ih =>
    intro h
    have hb := byteHex_not_sep (h b (by simp))
    have hbs := ih (fun x hx => h x (by simp [hx]))
    simp only [List.flatMap_cons, List.mem_append]
    exact ⟨fun hc => hc.elim (fun k => hb.1 k) (fun k => hbs.1 k),
      fun hc => hc.elim (fun k => hb.2 k) (fun k => hbs.2 k)⟩

theorem flatMap_byteHex_inj : ∀ l1 l2 : List Nat, (∀ b ∈ l1, b < 256) →
    (∀ b ∈ l2, b < 256) → l1.flatMap byteHex = l2.flatMap byteHex → l1 = l2 := by
  intro l1
  induction l1 with
  | nil =>
    intro l2 _ _ heq
    cases l2 with
    | nil => rfl
    | cons b bs => simp [byteHex] at heq
  | cons a as ih =>
    intro l2 h1 h2 heq
    cases l2 with
    | nil => simp [byteHex] at heq
    | cons b bs =>
      simp only [List.flatMap_cons, byteHex, List.cons_append, List.nil_append,
        List.cons.injEq] at heq
      obtain ⟨e1, e2, e3⟩ := heq
      have ha := h1 a (by simp)
      have hb := h2 b (by simp)
      have : a = b := by
        have d1 := hexDigit_inj (m := a / 16) (n := b / 16) (by omega) (by omega) e1
        have d2 := hexDigit_inj (m := a % 16) (n := b % 16) (by omega) (by omega) e2
        omega
      rw [this, ih bs (fun x hx => h1 x (by simp [hx])) (fun x hx => h2 x (by simp [hx])) e3]

end Gitqlite

namespace GitModel

open Gitqlite

/-- Well-formedness of a tree entry as produced by `make_tree_entries`: the mode
is a decimal or octal digit string (no space, no newline), the name is a file
name (no newline), and the id is a 20-byte digest. -/
def entryWF (e : TreeEntry) : Prop :=
  32 ∉ e.mode ∧ 10 ∉ e.mode ∧ 10 ∉ e.name ∧
    e.id.bytes.length = 20 ∧ ∀ b ∈ e.id.bytes, b < 256

instance (e : TreeEntry) : Decidable (entryWF e) := by
  unfold entryWF
  infer_instance

theorem typeStr_not_sep (t : TreeEntryType) : 10 ∉ t.str ∧ 32 ∉ t.str := by
  cases t <;> simp [TreeEntryType.str]

theorem typeStr_len (t : TreeEntryType) : t.str.length = 4 := by
  cases t <;> rfl

theorem typeStr_inj {t1 t2 : TreeEntryType} (h : t1.str = t2.str) : t1 = t2 := by
  cases t1 <;> cases t2 <;> first | rfl | simp [TreeEntryType.str] at h

theorem encodeEntryLine_no_nl {e : TreeEntry} (h : entryWF e) :
    10 ∉ encodeEntryLine e := by
  obtain ⟨hm32, hm10, hn10, hlen, hbytes⟩ := h
  have hhex := (flatMap_byteHex_not_sep e.id.bytes hbytes).1
  have htype := (typeStr_not_sep e.type_).1
  intro hc
  simp only [encodeEntryLine, Sha1Id.hex, List.mem_append, List.mem_cons] at hc
  rcases hc with h | h | h | h | h | h | h
  · exact hm10 h
  · omega
  · exact htype h
  · omega
  · exact hhex h
  · omega
  · exact hn10 h

theorem encodeEntryLine_ne_nil (e : TreeEntry) : encodeEntryLine e ≠ [] := by
  simp only [encodeEntryLine]
  intro h
  have := congrArg List.length h
  simp at this

theorem encodeEntryLine_inj : ∀ e1 e2 : TreeEntry, entryWF e1 → entryWF e2 →
    encodeEntryLine e1 = encodeEntryLine e2 → e1 = e2 := by
  intro e1 e2 w1 w2 heq
  obtain ⟨hm32a, _, _, hlen1, hbytes1⟩ := w1
  obtain ⟨hm32b, _, _, hlen2, hbytes2⟩ := w2
  simp only [encodeEntryLine] at heq
  have hsplit := split_first_sep 32 e1.mode e2.mode _ _ hm32a hm32b heq
  obtain ⟨hmode, hrest⟩ := hsplit
  have htype := List.append_inj hrest ((typeStr_len e1.type_).trans (typeStr_len e2.type_).symm)
  obtain ⟨hts, hrest2⟩ := htype
  simp only [List.cons.injEq, true_and] at hrest2
  have hhexlen : (Sha1Id.hex e1.id).length = (Sha1Id.hex e2.id).length := by
    simp only [Sha1Id.hex]
    rw [flatMap_byteHex_len, flatMap_byteHex_len, hlen1, hlen2]
  have hhex := List.append_inj hrest2 hhexlen
  obtain ⟨hhx, hname⟩ := hhex
  simp only [List.cons.injEq, true_and] at hname
  have hid : e1.id = e2.id := by
    have hb : e1.id.bytes = e2.id.bytes :=
      flatMap_byteHex_inj _ _ hbytes1 hbytes2 hhx
    calc e1.id = ⟨e1.id.bytes⟩ := rfl
    _ = ⟨e2.id.bytes⟩ := by rw [hb]
    _ = e2.id := rfl
  have ht : e1.type_ = e2.type_ := typeStr_inj hts
  cases e1; cases e2
  simp_all

/-- `encode_entries` is injective on trees of well-formed entries. -/
theorem encode_entries_inj : ∀ t1 t2 : Tree, (∀ e ∈ t1.entries, entryWF e) →
    (∀ e ∈ t2.entries, entryWF e) → t1.encode_entries = t2.encode_entries →
    t1 = t2 := by
  intro t1 t2 h1 h2 heq
  have hlines := joinSep_inj 10 (t1.entries.map encodeEntryLine)
    (t2.entries.map encodeEntryLine)
    (by
      intro l hl
      obtain ⟨e, he, rfl⟩ := List.mem_map.mp hl
      exact ⟨encodeEntryLine_ne_nil e, encodeEntryLine_no_nl (h1 e he)⟩)
    (by
      intro l hl
      obtain ⟨e, he, rfl⟩ := List.mem_map.mp hl
      exact ⟨encodeEntryLine_ne_nil e, encodeEntryLine_no_nl (h2 e he)⟩)
    heq
  cases t1 with
  | mk l1 =>
    cases t2 with
    | mk l2 =>
      simp only [Tree.mk.injEq]
      clear heq
      induction l1 generalizing l2 with
      | nil =>
        cases l2 with
        | nil => rfl
        | cons y ys => simp at hlines
      | cons x xs ih =>
        cases l2 with
        | nil => simp at hlines
        | cons y ys =>
          simp only [List.map_cons, List.cons.injEq] at hlines
          have hx : x = y := encodeEntryLine_inj x y (h1 x (by simp)) (h2 y (by simp)) hlines.1
          rw [hx, ih (fun e he => h1 e (by simp [he])) ys
            (fun e he => h2 e (by simp [he])) hlines.2]

end GitModel

namespace GitModel

open Gitqlite

/-- Concrete tree entries: mode "100644", names "a" and "b". -/
def entA : TreeEntry := ⟨.blob, idOnes, [49, 48, 48, 54, 52, 52], [97]⟩

def entB : TreeEntry := ⟨.blob, pDup, [49, 48, 48, 54, 52, 52], [98]⟩

/-- Claim C3, counterexample: `Hashable for Tree` digests the entries in stored
order without sorting them, so a tree holding the same entry set in non-sorted
order hashes differently from the digest of the canonical name-sorted encoding
(which is the hash of the sorted tree). -/
theorem tree_hash_not_sorted_internally :
    Tree.hash ⟨[entB, entA]⟩ ≠ Tree.hash ⟨[entA, entB]⟩ := by decide

/-- Claim C3, amended: the tree hash is the digest of the entry list encoded in
stored order (line format `<mode> <kind> <hex-id> <name>`, newline-joined, no
trailing separator); entries are name-sorted by the caller (`do_commit`), not
by the hash, so after canonical sorting the hash is permutation-invariant for
entry lists with pairwise-distinct names; and the encoding is injective on
well-formed entries, so the encoding differs whenever any entry's name, kind,
id, or mode differs (for the concrete single-entry name change below, the
digests themselves differ). -/
theorem tree_canonical_encoding :
    (∀ l1 l2 : List TreeEntry, l1.Perm l2 →
      List.Pairwise (fun a b => a.name ≠ b.name) l1 →
      Tree.hash ⟨sortEntries l1⟩ = Tree.hash ⟨sortEntries l2⟩) ∧
    (∀ t1 t2 : Tree, (∀ e ∈ t1.entries, entryWF e) → (∀ e ∈ t2.entries, entryWF e) →
      t1 ≠ t2 → t1.encode_entries ≠ t2.encode_entries) ∧
    Tree.hash ⟨[entA]⟩ ≠ Tree.hash ⟨[{ entA with name := [99] }]⟩ := by
  refine ⟨?_, ?_, by decide⟩
  · intro l1 l2 hperm hnd
    have hsorteq : sortEntries l1 = sortEntries l2 := by
      apply sorted_perm_eq
      · exact (sortEntries_perm l1).trans (hperm.trans (sortEntries_perm l2).symm)
      · exact sortEntries_sorted l1
      · exact sortEntries_sorted l2
      · exact ((sortEntries_perm l1).pairwise_iff
          (fun h => Ne.symm h)).mpr hnd
    rw [hsorteq]
  · intro t1 t2 h1 h2 hne heq
    exact hne (encode_entries_inj t1 t2 h1 h2 heq)

/-- Witness for `tree_canonical_encoding`: both general conjuncts instantiated
at concrete entry lists. -/
theorem tree_canonical_encoding_witness :
    Tree.hash ⟨sortEntries [entB, entA]⟩ = Tree.hash ⟨sortEntries [entA, entB]⟩ ∧
    Tree.encode_entries ⟨[entA]⟩ ≠ Tree.encode_entries ⟨[entB]⟩ :=
  ⟨tree_canonical_encoding.1 [entB, entA] [entA, entB] (by decide) (by decide),
   tree_canonical_encoding.2.1 ⟨[entA]⟩ ⟨[entB]⟩ (by decide) (by decide) (by decide)⟩

end GitModel

namespace Store

open Gitqlite GitModel

/-! ## Claim C4: object persistence

Table DDL in `src/git/model.rs`:
* `CREATE TABLE Blobs (blob_id TEXT, data BLOB NOT NULL);` — no PRIMARY KEY.
* `CREATE TABLE Trees (tree_id TEXT PRIMARY KEY, data TEXT NOT NULL);`
* `CREATE TABLE Commits (commit_id BLOB PRIMARY KEY, ...);`
and in `src/repo/db/blob.rs`:
* `CREATE TABLE Blobs (blob_id TEXT PRIMARY KEY, data BLOB NOT NULL);`
All writes go through `INSERT OR IGNORE`. -/

def gitBlobsHasPrimaryKey : Bool := false

def gitTreesHasPrimaryKey : Bool := true

def gitCommitsHasPrimaryKey : Bool := true

def dbBlobsHasPrimaryKey : Bool := true

/-- SQLite `INSERT OR IGNORE` over a table keyed (or not) on the id column:
with a PRIMARY KEY, an insert whose id already occurs is ignored; with no
uniqueness constraint there is never a conflict and the row is appended. -/
def insertOrIgnore {v : Type} (hasPk : Bool) (rows : List (Sha1Id × v))
    (id : Sha1Id) (val : v) : List (Sha1Id × v) :=
  if hasPk && rows.any (fun r => r.1 == id) then rows else rows ++ [(id, val)]

/-- `Blob::persist` (`src/git/model.rs`): `INSERT OR IGNORE INTO Blobs`. -/
def persistBlob (b : BlobWithId) (rows : List (Sha1Id × List Nat)) :
    List (Sha1Id × List Nat) :=
  insertOrIgnore gitBlobsHasPrimaryKey rows b.blob_id b.data

/-- `Tree::persist` (`src/git/model.rs`): `INSERT OR IGNORE INTO Trees` with
the encoded entry list as data. -/
def persistTree (t : TreeWithId) (rows : List (Sha1Id × List Nat)) :
    List (Sha1Id × List Nat) :=
  insertOrIgnore gitTreesHasPrimaryKey rows t.tree_id (Tree.encode_entries ⟨t.entries⟩)

/-- `Commit::persist` (`src/git/model.rs`): `INSERT OR IGNORE INTO Commits`. -/
def persistCommit (c : CommitWithId) (rows : List (Sha1Id × CommitWithId)) :
    List (Sha1Id × CommitWithId) :=
  insertOrIgnore gitCommitsHasPrimaryKey rows c.commit_id c

/-- Rows stored under one id. -/
def rowsFor {v : Type} (rows : List (Sha1Id × v)) (id : Sha1Id) : Nat :=
  (rows.filter (fun r => r.1 == id)).length

/-- The blob of the repository's own `test_insert_same_blob`, identified by its
content hash, and an identified tree and commit. -/
def blobTwice : BlobWithId := (Blob.mk [1, 2, 3, 4, 5]).with_id (Blob.hash ⟨[1, 2, 3, 4, 5]⟩)

def treeTwice : TreeWithId := (Tree.mk [entA]).with_id (Tree.hash ⟨[entA]⟩)

def commitTwice : CommitWithId := commitPQ.with_id (Commit.hash commitPQ)

/-- Claim C4: persisting the same identified object twice. For Trees and
Commits (tables with a PRIMARY KEY) exactly one row remains, but for the
`src/git/model.rs` Blobs table — created without any PRIMARY KEY — the second
`INSERT OR IGNORE` has no conflict to ignore and a duplicate row is stored:
two rows for the same blob id, against the claim's "exactly one stored row". -/
theorem persist_twice_row_counts :
    rowsFor (persistBlob blobTwice (persistBlob blobTwice [])) blobTwice.blob_id = 2 ∧
    rowsFor (persistTree treeTwice (persistTree treeTwice [])) treeTwice.tree_id = 1 ∧
    rowsFor (persistCommit commitTwice (persistCommit commitTwice []))
      commitTwice.commit_id = 1 := by
  refine ⟨by decide, by decide, ?_⟩
  simp [persistCommit, insertOrIgnore, rowsFor, gitCommitsHasPrimaryKey]

/-- For contrast (not a claim theorem): the rewritten `src/repo/db/blob.rs`
schema does declare `blob_id TEXT PRIMARY KEY`, and there the double persist
leaves exactly one row. -/
def dbPersistBlob (b : BlobWithId) (rows : List (Sha1Id × List Nat)) :
    List (Sha1Id × List Nat) :=
  insertOrIgnore dbBlobsHasPrimaryKey rows b.blob_id b.data

theorem db_persist_twice_single_row :
    rowsFor (dbPersistBlob blobTwice (dbPersistBlob blobTwice [])) blobTwice.blob_id = 1 := by
  decide

end Store

namespace Db

open Gitqlite

/-! ## `src/repo/db/*`: the rewritten database layer (claim C10)

Here `with_id()` takes no argument: it computes the object's own hash and is
the only way to turn an unidentified object into an identified one. `Tree` and
`Commit` hash the `serde_json` serialization of the whole unidentified value;
`NoId`'s serde impl is not under `src/`, its unit-struct serialization is
modelled as JSON `null`. The claim proved about this layer does not depend on
the exact JSON bytes. -/

/-- `Sha1Id` of the db layer (same 20-byte digest newtype). -/
structure Sha1Id where
  bytes : List Nat
  deriving DecidableEq, Repr

def Sha1Id.hex (id : Sha1Id) : List Nat := id.bytes.flatMap byteHex

/-- `ObjectType` (`src/repo/db/object.rs`). -/
inductive ObjectType where
  | index
  | head
  | commit
  | tree
  | blob
  deriving DecidableEq, Repr

/-- `FileType` (`src/repo/db/object.rs`). -/
inductive FileType where
  | directory
  | regular
  | symlink
  deriving DecidableEq, Repr

/-- JSON string quoting (the concrete payloads used contain no escapes). -/
def jsonQuote (s : List Nat) : List Nat := 34 :: (s ++ [34])

def jsonNull : List Nat := [110, 117, 108, 108]

/-- serde serialization of the `ObjectType` unit variants: "Index", "Head",
"Commit", "Tree", "Blob". -/
def ObjectType.json : ObjectType → List Nat
  | .index => jsonQuote [73, 110, 100, 101, 120]
  | .head => jsonQuote [72, 101, 97, 100]
  | .commit => jsonQuote [67, 111, 109, 109, 105, 116]
  | .tree => jsonQuote [84, 114, 101, 101]
  | .blob => jsonQuote [66, 108, 111, 98]

/-- serde serialization of `FileType`: "Directory", "Regular", "Symlink". -/
def FileType.json : FileType → List Nat
  | .directory => jsonQuote [68, 105, 114, 101, 99, 116, 111, 114, 121]
  | .regular => jsonQuote [82, 101, 103, 117, 108, 97, 114]
  | .symlink => jsonQuote [83, 121, 109, 108, 105, 110, 107]

/-- `Serialize for Sha1Id`: the 40-character lowercase hex string. -/
def Sha1Id.json (id : Sha1Id) : List Nat := jsonQuote id.hex

/-- `Blob<NoId>` (`src/repo/db/blob.rs`). -/
structure Blob where
  data : List Nat
  deriving DecidableEq, Repr

/-- `Blob<Sha1Id>`. -/
structure BlobWithId where
  blob_id : Sha1Id
  data : List Nat
  deriving DecidableEq, Repr

/-- `Hashable for Blob<NoId>`: digest of the raw data. -/
def Blob.hash (b : Blob) : Sha1Id := ⟨sha1 b.data⟩

/-- `Blob::new`. -/
def Blob.new (data : List Nat) : Blob := ⟨data⟩

/-- `Blob::with_id(self)`: computes `self.hash(Sha1::new())` and finalizes. -/
def Blob.with_id (b : Blob) : BlobWithId := ⟨b.hash, b.data⟩

/-- `TreeEntry` (`src/repo/db/tree.rs`). -/
structure TreeEntry where
  object_type : ObjectType
  file_type : FileType
  id : Sha1Id
  perms : Nat
  deriving DecidableEq, Repr

/-- `Tree<NoId>`: `entries` is a `BTreeMap<PathBuf, TreeEntry>`, embedded as a
key-sorted association list. -/
structure Tree where
  entries : List (List Nat × TreeEntry)
  deriving DecidableEq, Repr

structure TreeWithId where
  tree_id : Sha1Id
  entries : List (List Nat × TreeEntry)
  deriving DecidableEq, Repr

/-- serde serialization of one `TreeEntry`:
`{"object_type":…,"file_type":…,"id":…,"perms":…}`. -/
def TreeEntry.json (e : TreeEntry) : List Nat :=
  123 ::
    (jsonQuote [111, 98, 106, 101, 99, 116, 95, 116, 121, 112, 101] ++ 58 ::
      (e.object_type.json ++ 44 ::
        (jsonQuote [102, 105, 108, 101, 95, 116, 121, 112, 101] ++ 58 ::
          (e.file_type.json ++ 44 ::
            (jsonQuote [105, 100] ++ 58 ::
              (e.id.json ++ 44 ::
                (jsonQuote [112, 101, 114, 109, 115] ++ 58 ::
                  (natToDec e.perms ++ [125]))))))))

/-- serde serialization of `Tree<NoId>`:
`{"tree_id":null,"entries":{"<path>":<entry>,…}}` (BTreeMap serializes in key
order). -/
def Tree.json (t : Tree) : List Nat :=
  123 ::
    (jsonQuote [116, 114, 101, 101, 95, 105, 100] ++ 58 ::
      (jsonNull ++ 44 ::
        (jsonQuote [101, 110, 116, 114, 105, 101, 115] ++ 58 :: 123 ::
          (joinSep 44 (t.entries.map fun pe => jsonQuote pe.1 ++ 58 :: pe.2.json) ++
            [125, 125]))))

/-- `Hashable for Tree<NoId>`: digest of `serde_json::to_vec(self)`. -/
def Tree.hash (t : Tree) : Sha1Id := ⟨sha1 t.json⟩

/-- `Tree::with_id(self)`: computes the hash of the unidentified tree. -/
def Tree.with_id (t : Tree) : TreeWithId := ⟨t.hash, t.entries⟩

/-- `Commit<NoId>` (`src/repo/db/commit.rs`). -/
structure Commit where
  tree_id : Sha1Id
  parent_ids : List Sha1Id
  author_name : List Nat
  author_email : List Nat
  committer_name : List Nat
  committer_email : List Nat
  message : List Nat
  deriving DecidableEq, Repr

structure CommitWithId where
  commit_id : Sha1Id
  tree_id : Sha1Id
  parent_ids : List Sha1Id
  author_name : List Nat
  author_email : List Nat
  committer_name : List Nat
  committer_email : List Nat
  message : List Nat
  deriving DecidableEq, Repr

/-- serde serialization of `Commit<NoId>` (fields in declaration order;
`commit_id: NoId` as null, ids as hex strings, parents as an array). -/
def Commit.json (c : Commit) : List Nat :=
  123 ::
    (jsonQuote [99, 111, 109, 109, 105, 116, 95, 105, 100] ++ 58 ::
      (jsonNull ++ 44 ::
        (jsonQuote [116, 114, 101, 101, 95, 105, 100] ++ 58 ::
          (c.tree_id.json ++ 44 ::
            (jsonQuote [112, 97, 114, 101, 110, 116, 95, 105, 100, 115] ++ 58 :: 91 ::
              (joinSep 44 (c.parent_ids.map Sha1Id.json) ++ 93 :: 44 ::
                (jsonQuote [97, 117, 116, 104, 111, 114, 95, 110, 97, 109, 101] ++ 58 ::
                  (jsonQuote c.author_name ++ 44 ::
                    (jsonQuote [97, 117, 116, 104, 111, 114, 95, 101, 109, 97, 105, 108] ++ 58 ::
                      (jsonQuote c.author_email ++ 44 ::
                        (jsonQuote [99, 111, 109, 109, 105, 116, 116, 101, 114, 95, 110, 97,
                            109, 101] ++ 58 ::
                          (jsonQuote c.committer_name ++ 44 ::
                            (jsonQuote [99, 111, 109, 109, 105, 116, 116, 101, 114, 95, 101,
                                109, 97, 105, 108] ++ 58 ::
                              (jsonQuote c.committer_email ++ 44 ::
                                (jsonQuote [109, 101, 115, 115, 97, 103, 101] ++ 58 ::
                                  (jsonQuote c.message ++ [125]))))))))))))))))

/-- `Hashable for Commit<NoId>`: digest of `serde_json::to_vec(self)`. -/
def Commit.hash (c : Commit) : Sha1Id := ⟨sha1 c.json⟩

/-- `Commit::with_id(self)`. -/
def Commit.with_id (c : Commit) : CommitWithId :=
  ⟨c.hash, c.tree_id, c.parent_ids, c.author_name, c.author_email,
   c.committer_name, c.committer_email, c.message⟩

/-- Claim C10: in the repo/db layer the one-way finalize conversion `with_id`
always assigns the digest of the object's own content as its id: for every
byte vector `d`, `Blob::new(d).with_id().blob_id = Blob::new(d).hash(Sha1::new())`,
and likewise for every `Tree` and every `Commit`. Identified values are
immutable records, so every object that reaches `persist` carries its content
hash as its id. -/
theorem with_id_assigns_content_hash :
    (∀ d : List Nat, (Blob.new d).with_id.blob_id = (Blob.new d).hash) ∧
    (∀ t : Tree, t.with_id.tree_id = t.hash) ∧
    (∀ c : Commit, c.with_id.commit_id = c.hash) :=
  ⟨fun _ => rfl, fun _ => rfl, fun _ => rfl⟩

end Db

namespace GitIndex

open Gitqlite

/-! ## `src/git/index.rs`: the staging index -/

/-- `ModeType`. -/
inductive ModeType where
  | regular
  | symlink
  | gitlink
  deriving DecidableEq, Repr

/-- `IndexEntry`: snapshot of one staged file. -/
structure IndexEntry where
  ctime : Int
  mtime : Int
  dev : Nat
  ino : Nat
  mode_type : ModeType
  mode_perms : Nat
  uid : Nat
  gid : Nat
  fsize : Nat
  sha : GitModel.Sha1Id
  flag_assume_valid : Bool
  flag_stage : Nat
  name : List Nat
  deriving DecidableEq, Repr

/-- `Index`: the whole staging area. -/
structure Index where
  entries : List IndexEntry
  deriving DecidableEq, Repr

end GitIndex

namespace Status

open Gitqlite GitModel GitIndex

/-! ## `src/git/cmds/status.rs`: the two-phase diff

Phase A flattens the Head commit's tree (`tree_view`) and diffs it against the
index; phase B walks the working tree. The `Trees` table is embedded as an
association list `tree_id -> entry list`; the working-tree walk is embedded by
the list of regular files it encounters, in encounter order (the walk itself
only reads the file system). -/

/-- `Tree::read_from_conn_with_id`, restricted to the entry list. -/
def readTree (store : List (Sha1Id × List TreeEntry)) (id : Sha1Id) :
    Option (List TreeEntry) :=
  match store with
  | [] => none
  | (id', es) :: rest => if id' = id then some es else readTree rest id

/-- `BTreeMap::insert` on a key-sorted association list (byte-lexicographic
key order, replacement on an equal key). -/
def mapInsert {β : Type} (k : List Nat) (v : β) :
    List (List Nat × β) → List (List Nat × β)
  | [] => [(k, v)]
  | (k', v') :: rest =>
    if k = k' then (k, v) :: rest
    else if nameLe k k' then (k, v) :: (k', v') :: rest
    else (k', v') :: mapInsert k v rest

/-- The loop of `tree_view`: an explicit stack of `(tree_id, path prefix)`
pairs (`Vec` push/pop working at the tail), inserting
`prefix + "/" + entry.name` for blob entries and pushing subtrees. The first
argument is structural fuel; a missing tree surfaces the read error (`none`). -/
def treeViewLoop (store : List (Sha1Id × List TreeEntry)) :
    Nat → List (Sha1Id × List Nat) → List (List Nat × Sha1Id) →
    Option (List (List Nat × Sha1Id))
  | 0, stack, view => if stack.isEmpty then some view else none
  | fuel + 1, stack, view =>
    match stack.getLast? with
    | none => some view
    | some (curId, pre) =>
      match readTree store curId with
      | none => none
      | some entries =>
        let step := entries.foldl
          (fun (acc : List (Sha1Id × List Nat) × List (List Nat × Sha1Id)) e =>
            match e.type_ with
            | .blob => (acc.1, mapInsert (pre ++ 47 :: e.name) e.id acc.2)
            | .tree => (acc.1 ++ [(e.id, pre ++ 47 :: e.name)], acc.2))
          (stack.dropLast, view)
        treeViewLoop store fuel step.1 step.2

/-- `tree_view`: flatten a tree id to a full-path -> blob-id map, starting from
the empty string prefix. -/
def tree_view (fuel : Nat) (store : List (Sha1Id × List TreeEntry)) (tree_id : Sha1Id) :
    Option (List (List Nat × Sha1Id)) :=
  treeViewLoop store fuel [(tree_id, [])] []

/-- `index_map`: the index entries as a `BTreeMap` keyed by `entry.name`. -/
def index_map (i : Index) : List (List Nat × IndexEntry) :=
  i.entries.foldl (fun m e => mapInsert e.name e m) []

/-- The added/modified classification loop of `print_diff_index_head`: for each
index binding in map order, a name present in the head view with a different
blob id is modified, a name absent from the view is added. -/
def diffHeadAddedModified (view : List (List Nat × Sha1Id)) :
    List (List Nat × IndexEntry) → List (List Nat) × List (List Nat)
  | [] => ([], [])
  | (name, entry) :: rest =>
    let (a, m) := diffHeadAddedModified view rest
    match alLookup view name with
    | some old_id => if old_id ≠ entry.sha then (a, entry.name :: m) else (a, m)
    | none => (entry.name :: a, m)

/-- `print_diff_index_head`, as the three lists it reports: (added, modified,
deleted); deleted collects the view entries whose path is not an index key. -/
def print_diff_index_head (index : List (List Nat × IndexEntry))
    (view : List (List Nat × Sha1Id)) :
    List (List Nat) × List (List Nat) × List (List Nat) :=
  let (a, m) := diffHeadAddedModified view index
  (a, m, (view.filter (fun kv => (alLookup index kv.1).isNone)).map Prod.fst)

end Status

namespace Status

open Gitqlite GitModel GitIndex

/-- An index entry with the metadata fields zeroed (only `name`, `sha`, `mtime`
matter to the diff phases). -/
def mkEntry (name : List Nat) (sha : Sha1Id) (mtime : Int) : IndexEntry :=
  ⟨0, mtime, 0, 0, .regular, 420, 0, 0, 0, sha, false, 0, name⟩

def hA : Sha1Id := ⟨List.replicate 20 7⟩

def hB : Sha1Id := ⟨List.replicate 20 8⟩

def hRoot : Sha1Id := ⟨List.replicate 20 9⟩

/-- A head tree holding exactly `a.txt -> hA`. -/
def storeC2 : List (Sha1Id × List TreeEntry) :=
  [(hRoot, [⟨.blob, hA, [49, 48, 48, 54, 52, 52], [97, 46, 116, 120, 116]⟩])]

def entryA2 : IndexEntry := mkEntry [97, 46, 116, 120, 116] hA 0

def entryB2 : IndexEntry := mkEntry [98, 46, 116, 120, 116] hB 0

/-- Claim C2: status phase A on head tree `{a.txt: hA}` and index
`{a.txt: (hA), b.txt: (hB)}`. `tree_view` builds its keys as
`prefix + "/" + name` starting from the empty prefix, so the flattened view
key is `/a.txt` (leading slash) while the index key is `a.txt`; the report is
therefore `a.txt` and `b.txt` added and `/a.txt` deleted — not the claimed
"`b.txt` added, no modified, no deleted". -/
theorem status_phaseA_slash_mismatch :
    tree_view 4 storeC2 hRoot =
      some [([47, 97, 46, 116, 120, 116], hA)] ∧
    print_diff_index_head (index_map ⟨[entryA2, entryB2]⟩)
        [([47, 97, 46, 116, 120, 116], hA)] =
      ([[97, 46, 116, 120, 116], [98, 46, 116, 120, 116]], [],
        [[47, 97, 46, 116, 120, 116]]) := by
  decide

/-- A working-tree regular file as the phase-B walk encounters it: its
repository-relative path, live modification time, and content. -/
structure WtFile where
  path : List Nat
  mtime : Int
  content : List Nat
  deriving DecidableEq, Repr

/-- The phase-B loop of `print_diff_index_worktree`, over the regular files the
walk encounters in order (the walk skips the metadata directories and
ignore-matched paths before this loop body runs): a file absent from the index
is untracked (added); for an indexed file, equal mtime means no re-read (not
modified), a differing mtime re-reads and hashes the content and reports
modified exactly when the hash differs from the recorded blob id; each indexed
file is consumed from the (working copy of the) index, and the paths left in
the index at the end are reported deleted. -/
def diffIndexWorktree : List WtFile → List (List Nat × IndexEntry) →
    List (List Nat) × List (List Nat) × List (List Nat)
  | [], index => ([], [], index.map Prod.fst)
  | f :: rest, index =>
    match alLookup index f.path with
    | none =>
      let (a, m, d) := diffIndexWorktree rest index
      (f.path :: a, m, d)
    | some e =>
      let isMod : Bool :=
        if f.mtime == e.mtime then false
        else !(GitModel.Blob.hash ⟨f.content⟩ == e.sha)
      let (a, m, d) := diffIndexWorktree rest (alRemove index f.path)
      (a, if isMod then f.path :: m else m, d)

end Status

namespace Gitqlite

theorem alLookup_alRemove_ne {β : Type} (l : List (List Nat × β)) {p q : List Nat}
    (h : p ≠ q) : alLookup (alRemove l p) q = alLookup l q := by
  induction l with
  | nil => rfl
  | cons kv rest ih =>
    obtain ⟨k, v⟩ := kv
    by_cases hkp : k = p
    · subst hkp
      simp [alRemove, alLookup, if_neg h]
    · simp only [alRemove, if_neg hkp, alLookup]
      by_cases hkq : k = q
      · simp [hkq]
      · simp only [if_neg hkq]
        exact ih

theorem alLookup_alRemove_self {β : Type} (l : List (List Nat × β)) (p : List Nat)
    (h : (l.map Prod.fst).Nodup) : alLookup (alRemove l p) p = none := by
  induction l with
  | nil => rfl
  | cons kv rest ih =>
    obtain ⟨k, v⟩ := kv
    simp only [List.map_cons, List.nodup_cons] at h
    simp only [alRemove]
    by_cases hkp : k = p
    · subst hkp
      rw [if_pos rfl]
      clear ih
      induction rest with
      | nil => rfl
      | cons kv2 rest2 ih2 =>
        obtain ⟨k2, v2⟩ := kv2
        simp only [List.mem_cons, List.map_cons, List.nodup_cons] at h
        simp only [alLookup]
        rw [if_neg (fun hk2 => h.1 (Or.inl hk2.symm))]
        exact ih2 ⟨fun hm => h.1 (Or.inr hm), h.2.2⟩
    · rw [if_neg hkp]
      simp only [alLookup, if_neg hkp]
      exact ih h.2

theorem alRemove_keys_nodup {β : Type} (l : List (List Nat × β)) (p : List Nat)
    (h : (l.map Prod.fst).Nodup) : ((alRemove l p).map Prod.fst).Nodup := by
  induction l with
  | nil => exact h
  | cons kv rest ih =>
    obtain ⟨k, v⟩ := kv
    simp only [List.map_cons, List.nodup_cons] at h
    simp only [alRemove]
    by_cases hkp : k = p
    · rw [if_pos hkp]; exact h.2
    · rw [if_neg hkp]
      simp only [List.map_cons, List.nodup_cons]
      refine ⟨fun hm => ?_, ih h.2⟩
      have : (alRemove rest p).map Prod.fst ⊆ rest.map Prod.fst := by
        clear hm ih h
        induction rest with
        | nil => simp [alRemove]
        | cons kv2 rest2 ih2 =>
          obtain ⟨k2, v2⟩ := kv2
          simp only [alRemove]
          by_cases hk2 : k2 = p
          · rw [if_pos hk2]
            intro x hx
            exact List.mem_cons_of_mem _ hx
          · rw [if_neg hk2]
            simp only [List.map_cons]
            intro x hx
            rcases List.mem_cons.mp hx with rfl | hx2
            · exact List.mem_cons_self _ _
            · exact List.mem_cons_of_mem _ (ih2 hx2)
      exact h.1 (this hm)

theorem alRemove_keys_sub {β : Type} (l : List (List Nat × β)) (p : List Nat) :
    (alRemove l p).map Prod.fst ⊆ l.map Prod.fst := by
  induction l with
  | nil => simp [alRemove]
  | cons kv rest ih =>
    obtain ⟨k, v⟩ := kv
    simp only [alRemove]
    by_cases hkp : k = p
    · rw [if_pos hkp]
      intro x hx
      exact List.mem_cons_of_mem _ hx
    · rw [if_neg hkp]
      simp only [List.map_cons]
      intro x hx
      rcases List.mem_cons.mp hx with rfl | hx2
      · exact List.mem_cons_self _ _
      · exact List.mem_cons_of_mem _ (ih hx2)

theorem alRemove_self_not_mem {β : Type} (l : List (List Nat × β)) (p : List Nat)
    (h : (l.map Prod.fst).Nodup) : p ∉ (alRemove l p).map Prod.fst := by
  intro hm
  have := alLookup_alRemove_self l p h
  induction l with
  | nil => simp [alRemove] at hm
  | cons kv rest ih =>
    obtain ⟨k, v⟩ := kv
    simp only [List.map_cons, List.nodup_cons] at h
    simp only [alRemove] at hm this
    by_cases hkp : k = p
    · subst hkp
      rw [if_pos rfl] at hm
      exact h.1 hm
    · rw [if_neg hkp] at hm this
      simp only [List.map_cons, List.mem_cons] at hm
      rcases hm with rfl | hm2
      · exact hkp rfl
      · simp only [alLookup, if_neg hkp] at this
        exact ih h.2 hm2 this

theorem alLookup_some_mem_keys {β : Type} {l : List (List Nat × β)} {p : List Nat}
    {e : β} (h : alLookup l p = some e) : p ∈ l.map Prod.fst := by
  induction l with
  | nil => simp [alLookup] at h
  | cons kv rest ih =>
    obtain ⟨k, v⟩ := kv
    simp only [alLookup] at h
    by_cases hkp : k = p
    · simp [hkp]
    · rw [if_neg hkp] at h
      exact List.mem_cons_of_mem _ (ih h)

end Gitqlite


namespace Status

open Gitqlite GitModel GitIndex

theorem dW_not_walked_not_modified : ∀ (walk : List WtFile)
    (index : List (List Nat × IndexEntry)) (p : List Nat),
    p ∉ walk.map WtFile.path → p ∉ (diffIndexWorktree walk index).2.1 := by
  intro walk
  induction walk with
  | nil => intro index p _; simp [diffIndexWorktree]
  | cons f rest ih =>
    intro index p hp
    simp only [List.map_cons, List.mem_cons, not_or] at hp
    cases hl : alLookup index f.path with
    | none =>
      rcases hdw : diffIndexWorktree rest index with ⟨a, m, d⟩
      have hm := ih index p hp.2
      rw [hdw] at hm
      simpa [diffIndexWorktree, hl, hdw] using hm
    | some e =>
      rcases hdw : diffIndexWorktree rest (alRemove index f.path) with ⟨a, m, d⟩
      have hm := ih (alRemove index f.path) p hp.2
      rw [hdw] at hm
      simp only [diffIndexWorktree, hl, hdw]
      split
      · simpa using hm
      · split
        · simp only [List.mem_cons, not_or]
          exact ⟨hp.1, hm⟩
        · exact hm

theorem dW_deleted_sub_keys : ∀ (walk : List WtFile)
    (index : List (List Nat × IndexEntry)),
    (diffIndexWorktree walk index).2.2 ⊆ index.map Prod.fst := by
  intro walk
  induction walk with
  | nil => intro index; simp [diffIndexWorktree]
  | cons f rest ih =>
    intro index
    cases hl : alLookup index f.path with
    | none =>
      rcases hdw : diffIndexWorktree rest index with ⟨a, m, d⟩
      have hs := ih index
      rw [hdw] at hs
      simpa [diffIndexWorktree, hl, hdw] using hs
    | some e =>
      rcases hdw : diffIndexWorktree rest (alRemove index f.path) with ⟨a, m, d⟩
      have hs := ih (alRemove index f.path)
      rw [hdw] at hs
      have h2 := alRemove_keys_sub index f.path
      simp only [diffIndexWorktree, hl, hdw]
      exact fun x hx => h2 (hs hx)

theorem dW_unwalked_deleted : ∀ (walk : List WtFile)
    (index : List (List Nat × IndexEntry)) (p : List Nat) (e : IndexEntry),
    alLookup index p = some e → p ∉ walk.map WtFile.path →
    p ∈ (diffIndexWorktree walk index).2.2 := by
  intro walk
  induction walk with
  | nil =>
    intro index p e hle _
    simpa [diffIndexWorktree] using alLookup_some_mem_keys hle
  | cons f rest ih =>
    intro index p e hle hp
    simp only [List.map_cons, List.mem_cons, not_or] at hp
    cases hl : alLookup index f.path with
    | none =>
      rcases hdw : diffIndexWorktree rest index with ⟨a, m, d⟩
      have hm := ih index p e hle hp.2
      rw [hdw] at hm
      simpa [diffIndexWorktree, hl, hdw] using hm
    | some eg =>
      rcases hdw : diffIndexWorktree rest (alRemove index f.path) with ⟨a, m, d⟩
      have hle2 : alLookup (alRemove index f.path) p = some e := by
        rw [alLookup_alRemove_ne index (fun h => hp.1 h.symm)]
        exact hle
      have hm := ih (alRemove index f.path) p e hle2 hp.2
      rw [hdw] at hm
      simpa [diffIndexWorktree, hl, hdw] using hm

end Status

namespace Status

open Gitqlite GitModel GitIndex

/-- Claim C9: status phase B. (1) For an indexed file whose live mtime equals
the recorded mtime, the classification does not depend on the file content
(fast path, no read/hash). (2) For every walked file present in the index:
equal mtime means it is reported neither modified nor deleted; a differing
mtime means it is reported modified exactly when the content hash differs from
the recorded blob id. (3) Every index path not encountered by the walk is
reported deleted. -/
theorem worktree_diff_classification :
    (∀ (f : WtFile) (rest : List WtFile) (index : List (List Nat × IndexEntry))
        (e : IndexEntry) (c' : List Nat),
      alLookup index f.path = some e → f.mtime = e.mtime →
      diffIndexWorktree ({ f with content := c' } :: rest) index =
        diffIndexWorktree (f :: rest) index) ∧
    (∀ (walk : List WtFile) (index : List (List Nat × IndexEntry)),
      (index.map Prod.fst).Nodup → (walk.map WtFile.path).Nodup →
      ∀ f ∈ walk, ∀ e : IndexEntry, alLookup index f.path = some e →
        (f.mtime = e.mtime →
          f.path ∉ (diffIndexWorktree walk index).2.1 ∧
          f.path ∉ (diffIndexWorktree walk index).2.2) ∧
        (f.mtime ≠ e.mtime →
          (f.path ∈ (diffIndexWorktree walk index).2.1 ↔
            GitModel.Blob.hash ⟨f.content⟩ ≠ e.sha))) ∧
    (∀ (walk : List WtFile) (index : List (List Nat × IndexEntry)) (p : List Nat)
        (e : IndexEntry),
      alLookup index p = some e → p ∉ walk.map WtFile.path →
      p ∈ (diffIndexWorktree walk index).2.2) := by
  refine ⟨?_, ?_, dW_unwalked_deleted⟩
  · intro f rest index e c' hle hmt
    have hb : (f.mtime == e.mtime) = true := beq_iff_eq.mpr hmt
    simp [diffIndexWorktree, hle, hb]
  · intro walk
    induction walk with
    | nil => intro index _ _ f hf; exact absurd hf (by simp)
    | cons g rest ih =>
      intro index hnodI hnodW f hf e hle
      simp only [List.map_cons, List.nodup_cons] at hnodW
      rcases List.mem_cons.mp hf with rfl | hfr
      · -- f is the head of the walk
        rcases hdw : diffIndexWorktree rest (alRemove index f.path) with ⟨a, m, d⟩
        have hnm : f.path ∉ m := by
          have := dW_not_walked_not_modified rest (alRemove index f.path) f.path hnodW.1
          rwa [hdw] at this
        constructor
        · intro hmt
          have hb : (f.mtime == e.mtime) = true := beq_iff_eq.mpr hmt
          have hnd : f.path ∉ d := by
            intro hd
            have hsub := dW_deleted_sub_keys rest (alRemove index f.path)
            rw [hdw] at hsub
            exact alRemove_self_not_mem index f.path hnodI (hsub hd)
          simp only [diffIndexWorktree, hle, hb, hdw]
          exact ⟨hnm, hnd⟩
        · intro hmt
          have hb : (f.mtime == e.mtime) = false := by
            simp [beq_eq_false_iff_ne, hmt]
          simp only [diffIndexWorktree, hle, hb, hdw]
          by_cases hh : GitModel.Blob.hash ⟨f.content⟩ = e.sha
          · simp [hh, hnm]
          · simp [hh]
      · -- f occurs later in the walk
        have hfp : f.path ∈ rest.map WtFile.path := List.mem_map_of_mem _ hfr
        have hne : f.path ≠ g.path := fun h => hnodW.1 (h ▸ hfp)
        cases hg : alLookup index g.path with
        | none =>
          rcases hdw : diffIndexWorktree rest index with ⟨a, m, d⟩
          have := ih index hnodI hnodW.2 f hfr e hle
          rw [hdw] at this
          simpa [diffIndexWorktree, hg, hdw] using this
        | some eg =>
          have hle2 : alLookup (alRemove index g.path) f.path = some e := by
            rw [alLookup_alRemove_ne index (fun h => hne h.symm)]
            exact hle
          have hnod2 := alRemove_keys_nodup index g.path hnodI
          rcases hdw : diffIndexWorktree rest (alRemove index g.path) with ⟨a, m, d⟩
          have := ih (alRemove index g.path) hnod2 hnodW.2 f hfr e hle2
          rw [hdw] at this
          simp only [diffIndexWorktree, hg, hdw]
          constructor
          · intro hmt
            obtain ⟨h1, h2⟩ := this.1 hmt
            refine ⟨?_, h2⟩
            split
            · simpa using h1
            · split
              · simp only [List.mem_cons, not_or]
                exact ⟨hne, h1⟩
              · exact h1
          · intro hmt
            have h3 := this.2 hmt
            split
            · simpa using h3
            · split
              · rw [← h3]
                simp [hne]
              · exact h3

/-- Witness for `worktree_diff_classification`: each conjunct applied to a
one-file walk against a one-entry index. -/
theorem worktree_diff_classification_witness :
    (diffIndexWorktree
        [{ path := [97], mtime := 5, content := [2] }]
        [([97], mkEntry [97] hA 5)] =
      diffIndexWorktree [⟨[97], 5, [1]⟩] [([97], mkEntry [97] hA 5)]) ∧
    ([97] ∉ (diffIndexWorktree [⟨[97], 5, [1]⟩] [([97], mkEntry [97] hA 5)]).2.1 ∧
      [97] ∉ (diffIndexWorktree [⟨[97], 5, [1]⟩] [([97], mkEntry [97] hA 5)]).2.2) ∧
    [98] ∈ (diffIndexWorktree [⟨[97], 5, [1]⟩]
        [([97], mkEntry [97] hA 5), ([98], mkEntry [98] hB 5)]).2.2 :=
  ⟨worktree_diff_classification.1 ⟨[97], 5, [1]⟩ [] [([97], mkEntry [97] hA 5)]
      (mkEntry [97] hA 5) [2] (by decide) (by decide),
   (worktree_diff_classification.2.1 [⟨[97], 5, [1]⟩] [([97], mkEntry [97] hA 5)]
      (by decide) (by decide) ⟨[97], 5, [1]⟩ (by decide) (mkEntry [97] hA 5)
      (by decide)).1 (by decide),
   worktree_diff_classification.2.2 [⟨[97], 5, [1]⟩]
      [([97], mkEntry [97] hA 5), ([98], mkEntry [98] hB 5)] [98] (mkEntry [98] hB 5)
      (by decide) (by decide)⟩

end Status

namespace Ignore

open Gitqlite

/-! ## `src/git/ignore.rs`: the scoped ignore matcher

Paths are absolute segment lists. `glob::glob(full_pattern)` expands a pattern
against the really-existing filesystem; the filesystem is embedded as the list
`fs` of existing paths and expansion as filtering `fs` by the pattern. Within
one segment `*` matches any run of characters (never a separator); a `**`
segment matches zero or more whole components; other bytes match literally
(`?` and character classes are not exercised by any claim). The order of glob
results does not matter here: a rule fires when any expanded path is a prefix
of the target, so only the set matters. -/

abbrev Path := List (List Nat)

/-- Match one glob segment against one path segment; first argument is fuel. -/
def matchSeg : Nat → List Nat → List Nat → Bool
  | 0, _, _ => false
  | _ + 1, [], [] => true
  | _ + 1, [], _ :: _ => false
  | fuel + 1, 42 :: ps, s =>
    matchSeg fuel ps s ||
      (match s with
       | [] => false
       | _ :: s' => matchSeg fuel (42 :: ps) s')
  | _ + 1, _ :: _, [] => false
  | fuel + 1, c :: ps, x :: s' => c == x && matchSeg fuel ps s'

/-- Match a glob pattern (as segments) against a path; first argument is fuel. -/
def matchSegsF : Nat → List (List Nat) → Path → Bool
  | 0, _, _ => false
  | _ + 1, [], [] => true
  | _ + 1, [], _ :: _ => false
  | fuel + 1, p :: ps, segs =>
    if p = [42, 42] then
      matchSegsF fuel ps segs ||
        (match segs with
         | [] => false
         | _ :: segs' => matchSegsF fuel (p :: ps) segs')
    else
      match segs with
      | [] => false
      | x :: segs' => matchSeg (p.length + x.length + 1) p x && matchSegsF fuel ps segs'

def globMatch (patSegs : List (List Nat)) (p : Path) : Bool :=
  matchSegsF (patSegs.length + p.length + 1) patSegs p

/-- `glob::glob(dir.join(pat))`: the existing paths that the pattern matches. -/
def globExpand (fs : List Path) (patSegs : List (List Nat)) : List Path :=
  fs.filter (globMatch patSegs)

/-- Split a pattern string at `/` into segments. -/
def splitSlash (pat : List Nat) : List (List Nat) :=
  pat.foldr
    (fun c acc =>
      if c = 47 then [] :: acc
      else
        match acc with
        | [] => [[c]]
        | s :: rest => (c :: s) :: rest)
    [[]]

/-- `IgnoreRule`: an exclude or negate pattern (comments are dropped by the
parser; a `\`-escaped line is a literal exclude). -/
inductive IgnoreRule where
  | exclude (pat : List Nat)
  | negate (pat : List Nat)
  deriving DecidableEq, Repr

/-- `GitIgnore`: per-directory scoped rule lists plus the (unused) absolute
rule lists (`scoped` is a Lean keyword, hence the field name `scopedRules`). -/
structure GitIgnore where
  scopedRules : List (Path × List IgnoreRule)
  absolute : List (List IgnoreRule)

/-- `HashMap::get` on the scoped map. -/
def scopedLookup (l : List (Path × List IgnoreRule)) (k : Path) :
    Option (List IgnoreRule) :=
  match l with
  | [] => none
  | (k', v) :: rest => if k' = k then some v else scopedLookup rest k

/-- The rule loop of `check_gitignore_one` over `rules.iter().rev()`: expand
`dir.join(pat)`; if some expansion is a prefix of the target
(`target.starts_with(expanded)`), an exclude rule decides `true` and a negate
rule decides `false`; otherwise continue; no rule decides -> `None`. -/
def checkRulesRev (fs : List Path) (dir target : Path) : List IgnoreRule → Option Bool
  | [] => none
  | .exclude pat :: rest =>
    if (globExpand fs (dir ++ splitSlash pat)).any (fun ex => ex.isPrefixOf target)
    then some true
    else checkRulesRev fs dir target rest
  | .negate pat :: rest =>
    if (globExpand fs (dir ++ splitSlash pat)).any (fun ex => ex.isPrefixOf target)
    then some false
    else checkRulesRev fs dir target rest

/-- `check_gitignore_one`: evaluate one directory's rule list, last-defined
rule first. -/
def check_gitignore_one (fs : List Path) (dir : Path) (rules : List IgnoreRule)
    (target : Path) : Option Bool :=
  checkRulesRev fs dir target rules.reverse

/-- `Path::ancestors()`: the path, then each parent, down to the root. -/
def ancestors (p : Path) : List Path :=
  (List.range (p.length + 1)).reverse.map (fun n => p.take n)

/-- The loop of `check_ignore_scoped` over `target.ancestors().skip(1)`:
at each ancestor owning a rule list, evaluate it; a decided result returns,
an undecided list lets the walk continue outward. -/
def scanAncestors (fs : List Path) (sm : List (Path × List IgnoreRule))
    (target : Path) : List Path → Option Bool
  | [] => none
  | d :: rest =>
    match scopedLookup sm d with
    | some rules =>
      match check_gitignore_one fs d rules target with
      | some r => some r
      | none => scanAncestors fs sm target rest
    | none => scanAncestors fs sm target rest

def check_ignore_scoped (fs : List Path) (sm : List (Path × List IgnoreRule))
    (target : Path) : Option Bool :=
  scanAncestors fs sm target ((ancestors target).drop 1)

/-- `check_gitignore` (the `should_ignore` entry point): scoped decision or
the `false` default (the absolute rules are not implemented). -/
def check_gitignore (fs : List Path) (g : GitIgnore) (target : Path) : Bool :=
  match check_ignore_scoped fs g.scopedRules target with
  | some r => r
  | none => false

/-! Concrete repository `/repo` with `subdir/file.txt`. -/

def segRepo : List Nat := [114, 101, 112, 111]

def segSub : List Nat := [115, 117, 98, 100, 105, 114]

def segFileTxt : List Nat := [102, 105, 108, 101, 46, 116, 120, 116]

def segGitignore : List Nat := [46, 103, 105, 116, 105, 103, 110, 111, 114, 101]

def pRepo : Path := [segRepo]

def pSub : Path := [segRepo, segSub]

def pFile : Path := [segRepo, segSub, segFileTxt]

/-- Existing paths: the repo root, its ignore file, the subdirectory, the file. -/
def fsA : List Path := [pRepo, [segRepo, segGitignore], pSub, pFile]

/-- As `fsA`, with an ignore file inside `subdir` as well. -/
def fsB : List Path := fsA ++ [[segRepo, segSub, segGitignore]]

/-- Rule `*.txt`. -/
def ruleStarTxt : IgnoreRule := .exclude [42, 46, 116, 120, 116]

/-- Rule `**/*.txt`. -/
def ruleGlobTxt : IgnoreRule := .exclude [42, 42, 47, 42, 46, 116, 120, 116]

/-- Rule `!file.txt` (negate). -/
def ruleNegFile : IgnoreRule := .negate segFileTxt

/-- Rule `*.bin`. -/
def ruleStarBin : IgnoreRule := .exclude [42, 46, 98, 105, 110]

end Ignore

namespace Ignore

theorem scanAncestors_all_undecided (fs : List Path)
    (sm : List (Path × List IgnoreRule)) (target : Path) :
    ∀ l : List Path,
    (∀ d ∈ l, ∀ rules, scopedLookup sm d = some rules →
      check_gitignore_one fs d rules target = none) →
    scanAncestors fs sm target l = none := by
  intro l
  induction l with
  | nil => intro _; rfl
  | cons d rest ih =>
    intro h
    cases hlk : scopedLookup sm d with
    | none =>
      simp only [scanAncestors, hlk]
      exact ih (fun d' hd' => h d' (List.mem_cons_of_mem _ hd'))
    | some rules =>
      simp only [scanAncestors, hlk, h d (by simp) rules hlk]
      exact ih (fun d' hd' => h d' (List.mem_cons_of_mem _ hd'))

theorem scanAncestors_first_decision (fs : List Path)
    (sm : List (Path × List IgnoreRule)) (target d : Path) (post : List Path)
    (rules : List IgnoreRule) (r : Bool)
    (hlk : scopedLookup sm d = some rules)
    (hdec : check_gitignore_one fs d rules target = some r) :
    ∀ pre : List Path,
    (∀ d' ∈ pre, ∀ rules', scopedLookup sm d' = some rules' →
      check_gitignore_one fs d' rules' target = none) →
    scanAncestors fs sm target (pre ++ d :: post) = some r := by
  intro pre
  induction pre with
  | nil => intro _; simp [scanAncestors, hlk, hdec]
  | cons p pre' ih =>
    intro h
    simp only [List.cons_append]
    cases hlk2 : scopedLookup sm p with
    | none =>
      simp only [scanAncestors, hlk2]
      exact ih (fun d' hd' => h d' (List.mem_cons_of_mem _ hd'))
    | some rules' =>
      simp only [scanAncestors, hlk2, h p (by simp) rules' hlk2]
      exact ih (fun d' hd' => h d' (List.mem_cons_of_mem _ hd'))

/-- Claim C5, counterexample: the rule `*.txt` in the repository root's ignore
file does not make `should_ignore(subdir/file.txt)` true. `*` in the `glob`
crate never crosses a path separator, so `/repo/*.txt` expands only to
txt files directly inside the root; no expansion is a prefix of
`/repo/subdir/file.txt` and the query returns `false`. -/
theorem ignore_star_txt_not_recursive :
    check_gitignore fsA ⟨[(pRepo, [ruleStarTxt])], []⟩ pFile = false := by
  decide

/-- Claim C5, amended: replacing the root rule by `**/*.txt` (as the
repository's own multi-level test does) makes `should_ignore(subdir/file.txt)`
true; adding the rule `!file.txt` in `subdir`'s own ignore file makes it
false; and a path governed by no rule in any ancestor's ignore file is never
ignored. -/
theorem ignore_resolution :
    check_gitignore fsA ⟨[(pRepo, [ruleGlobTxt])], []⟩ pFile = true ∧
    check_gitignore fsB ⟨[(pRepo, [ruleGlobTxt]), (pSub, [ruleNegFile])], []⟩ pFile
      = false ∧
    (∀ (fs : List Path) (sm : List (Path × List IgnoreRule)) (target : Path),
      (∀ d ∈ (ancestors target).drop 1, ∀ rules, scopedLookup sm d = some rules →
        check_gitignore_one fs d rules target = none) →
      check_gitignore fs ⟨sm, []⟩ target = false) := by
  refine ⟨by decide, by decide, ?_⟩
  intro fs sm target h
  unfold check_gitignore check_ignore_scoped
  rw [scanAncestors_all_undecided fs sm target _ h]

/-- Witness for `ignore_resolution`: the third conjunct applied to the empty
scoped map. -/
theorem ignore_resolution_witness :
    check_gitignore fsA ⟨[], []⟩ pFile = false :=
  ignore_resolution.2.2 fsA [] pFile
    (by intro d _ rules hr; simp [scopedLookup] at hr)

/-- Claim C6, counterexample: with root rules `[**/*.txt]` and subdir rules
`[*.bin]`, the query for `subdir/file.txt` reaches `subdir` first — the
nearest rule-owning ancestor — whose list decides nothing (`none`), yet the
overall result is `true` because the walk continues to the root's rules. The
nearest rule-owning directory's list alone does not decide the outcome. -/
theorem ignore_nearest_undecided_continues :
    check_gitignore fsA ⟨[(pRepo, [ruleGlobTxt]), (pSub, [ruleStarBin])], []⟩ pFile
      = true ∧
    check_gitignore_one fsA pSub [ruleStarBin] pFile = none := by
  constructor <;> decide

/-- Claim C6, amended: the ancestor walk stops at the first (nearest) ancestor
whose rule list produces a decision: if every nearer rule-owning ancestor's
list is undecided on the target and ancestor `d` owns a list deciding `r`,
then the query returns `r`, whatever rule lists farther ancestors own (the
scoped map is universally quantified, so entries for farther ancestors are
never consulted). An ancestor owning rules none of which match does not stop
the walk. -/
theorem ignore_first_deciding_ancestor :
    ∀ (fs : List Path) (sm : List (Path × List IgnoreRule)) (target d : Path)
      (pre post : List Path) (rules : List IgnoreRule) (r : Bool)
      (abs : List (List IgnoreRule)),
    (ancestors target).drop 1 = pre ++ d :: post →
    (∀ d' ∈ pre, ∀ rules', scopedLookup sm d' = some rules' →
      check_gitignore_one fs d' rules' target = none) →
    scopedLookup sm d = some rules →
    check_gitignore_one fs d rules target = some r →
    check_gitignore fs ⟨sm, abs⟩ target = r := by
  intro fs sm target d pre post rules r abs hanc hpre hlk hdec
  unfold check_gitignore check_ignore_scoped
  rw [hanc, scanAncestors_first_decision fs sm target d post rules r hlk hdec pre hpre]

/-- Witness for `ignore_first_deciding_ancestor`: the concrete situation of
the counterexample, with `pre = [subdir]` (undecided) and `d = /repo`
deciding `true`. -/
theorem ignore_first_deciding_ancestor_witness :
    check_gitignore fsA ⟨[(pRepo, [ruleGlobTxt]), (pSub, [ruleStarBin])], []⟩ pFile
      = true :=
  ignore_first_deciding_ancestor fsA [(pRepo, [ruleGlobTxt]), (pSub, [ruleStarBin])]
    pFile pRepo [pSub] [[]] [ruleGlobTxt] true []
    (by decide)
    (by
      intro d' hd' rules' hlk
      have hd2 : d' = pSub := by simpa using hd'
      subst hd2
      have he : scopedLookup [(pRepo, [ruleGlobTxt]), (pSub, [ruleStarBin])] pSub =
          some [ruleStarBin] := by decide
      rw [he] at hlk
      obtain rfl : rules' = [ruleStarBin] := (Option.some.inj hlk).symm
      decide)
    (by decide)
    (by decide)

end Ignore

namespace CommitCmd

open Gitqlite GitModel GitIndex

/-! ## `src/git/cmds/commit.rs`: `do_commit`

The staged entries are grouped by their absolute containing directory
(`HashMap<PathBuf, Vec<BlobOrTree>>`, embedded insertion-ordered), the
directory keys are sorted by descending rendered-path length, and trees are
built bottom-up; a subtree is pushed into its parent's entry vector through
`directory_entries.get_mut(parent).unwrap()`. The database connection, config
lookup and Head/Ref reads are passed in as values; `none` models a panic
(`unwrap` on `None`). -/

abbrev Path := List (List Nat)

/-- `BlobOrTree`: one staged file, or an already-built subtree (its id, its
repo-relative path string, and its mode "040000"). -/
inductive BlobOrTree where
  | blob (entry : IndexEntry)
  | tree (tree_id : Sha1Id) (name : List Nat) (mode : List Nat)
  deriving DecidableEq, Repr

/-- `BlobOrTree::name`. -/
def BlobOrTree.name : BlobOrTree → List Nat
  | .blob e => e.name
  | .tree _ n _ => n

def plLookup {β : Type} (l : List (Path × β)) (k : Path) : Option β :=
  match l with
  | [] => none
  | (k', v) :: rest => if k' = k then some v else plLookup rest k

/-- Replace the first binding of a key (models mutating through `get_mut`). -/
def plUpdate {β : Type} (l : List (Path × β)) (k : Path) (v : β) : List (Path × β) :=
  match l with
  | [] => []
  | (k', v') :: rest => if k' = k then (k', v) :: rest else (k', v') :: plUpdate rest k v

/-- `directory_entries.entry(parent).or_default().push(b)`. -/
def addToDir (m : List (Path × List BlobOrTree)) (k : Path) (b : BlobOrTree) :
    List (Path × List BlobOrTree) :=
  match m with
  | [] => [(k, [b])]
  | (k', l) :: rest =>
    if k' = k then (k', l ++ [b]) :: rest else (k', l) :: addToDir rest k b

/-- `to_string_lossy().len()` of an absolute path: one separator before each
segment plus the segment lengths. -/
def pathStrLen (p : Path) : Nat := p.foldl (fun acc s => acc + 1 + s.length) 0

/-- Stable insertion for `keys.sort_by_key(|path| -(len as i32))`: a key goes
after every key of greater or equal length (descending, stable). -/
def insKey (x : Path) : List Path → List Path
  | [] => [x]
  | y :: ys => if pathStrLen x ≤ pathStrLen y then y :: insKey x ys else x :: y :: ys

def sortKeysDesc (l : List Path) : List Path := l.foldr insKey []

/-- Stable insertion for `entries.sort_by(|e1, e2| e1.name().cmp(e2.name()))`. -/
def insBot (x : BlobOrTree) : List BlobOrTree → List BlobOrTree
  | [] => [x]
  | y :: ys => if nameLe y.name x.name then y :: insBot x ys else x :: y :: ys

def sortBots (l : List BlobOrTree) : List BlobOrTree := l.foldr insBot []

/-- `PathBuf::from(name).file_name()`: the last `/`-separated component. -/
def fileName (name : List Nat) : List Nat :=
  ((Ignore.splitSlash name).getLast?).getD []

/-- `make_tree_entries`: blob entries carry the staged blob id and
`mode_perms.to_string()`; subtree entries carry the child tree id and mode. -/
def make_tree_entries (l : List BlobOrTree) : List TreeEntry :=
  l.map fun b =>
    match b with
    | .blob e => ⟨.blob, e.sha, natToDec e.mode_perms, fileName e.name⟩
    | .tree tid name mode => ⟨.tree, tid, mode, fileName name⟩

/-- `Head`. -/
inductive Head where
  | branch (name : List Nat)
  | commit (id : Sha1Id)
  deriving DecidableEq, Repr

/-- `INSERT OR REPLACE INTO Refs` (`Ref::persist_or_update`). -/
def refsUpsert (refs : List (List Nat × Sha1Id)) (name : List Nat) (id : Sha1Id) :
    List (List Nat × Sha1Id) :=
  match refs with
  | [] => [(name, id)]
  | (n, i) :: rest =>
    if n = name then (name, id) :: rest else (n, i) :: refsUpsert rest name id

structure CommitResult where
  persistedTrees : List (Sha1Id × List TreeEntry)
  commit : CommitWithId
  newHead : Head
  newRefs : List (List Nat × Sha1Id)
  deriving DecidableEq, Repr

/-- The tree-building loop of `do_commit` over the sorted directory keys.
`none` models the two `unwrap` panics: a key absent from `directory_entries`,
and — the one actually reachable — `get_mut(parent)` on a parent directory
that owns no directly-staged file. -/
def buildTrees (repoRoot : Path) : List Path → List (Path × List BlobOrTree) →
    List (Path × Sha1Id) → List (Sha1Id × List TreeEntry) →
    Option (List (Path × Sha1Id) × List (Sha1Id × List TreeEntry))
  | [], _, trees, persisted => some (trees, persisted)
  | k :: ks, dirs, trees, persisted =>
    match plLookup dirs k with
    | none => none
    | some entries =>
      let sorted := sortBots entries
      let treeEntries := make_tree_entries sorted
      let tid := Tree.hash ⟨treeEntries⟩
      let persisted2 := persisted ++ [(tid, treeEntries)]
      let trees2 := trees ++ [(k, tid)]
      if k = repoRoot then buildTrees repoRoot ks dirs trees2 persisted2
      else
        let parent := k.dropLast
        match plLookup dirs parent with
        | none => none
        | some pl =>
          let bot := BlobOrTree.tree tid (joinSep 47 (k.drop repoRoot.length))
            [48, 52, 48, 48, 48, 48]
          buildTrees repoRoot ks (plUpdate dirs parent (pl ++ [bot])) trees2 persisted2

/-- `do_commit`: group the index by containing directory, build the trees
bottom-up, look up the root tree, resolve Head to the parent commit, build and
persist the commit, and update Ref or Head. -/
def do_commit (repoRoot : Path) (index : List IndexEntry) (head : Head)
    (refs : List (List Nat × Sha1Id)) (user userEmail message : List Nat) :
    Option CommitResult :=
  let dirs := index.foldl
    (fun m e => addToDir m (repoRoot ++ Ignore.splitSlash e.name).dropLast (.blob e)) []
  let keys := sortKeysDesc (dirs.map Prod.fst)
  match buildTrees repoRoot keys dirs [] [] with
  | none => none
  | some (trees, persisted) =>
    match plLookup trees repoRoot with
    | none => none
    | some rootTid =>
      let rootCommit :=
        match head with
        | .branch b => alLookup refs b
        | .commit id => some id
      let parent_ids :=
        match rootCommit with
        | some c => [c]
        | none => []
      let commit := Commit.mk rootTid parent_ids user userEmail user userEmail message
      let cid := commit.hash
      let commitI := commit.with_id cid
      match head with
      | .branch name => some ⟨persisted, commitI, .branch name, refsUpsert refs name cid⟩
      | .commit _ => some ⟨persisted, commitI, .commit cid, refs⟩

end CommitCmd

namespace CommitCmd

open Gitqlite GitModel GitIndex

def hF : Sha1Id := ⟨List.replicate 20 4⟩

def hR : Sha1Id := ⟨List.replicate 20 5⟩

def hPrev : Sha1Id := ⟨List.replicate 20 6⟩

/-- The repository root `/repo`. -/
def rootP : Path := [[114, 101, 112, 111]]

/-- Staged entry `dir/sub/f.txt -> hF`. -/
def eF : IndexEntry :=
  Status.mkEntry [100, 105, 114, 47, 115, 117, 98, 47, 102, 46, 116, 120, 116] hF 0

/-- Staged entry `root.txt -> hR`. -/
def eR : IndexEntry := Status.mkEntry [114, 111, 111, 116, 46, 116, 120, 116] hR 0

/-- Staged entry `dir/f.txt -> hF` (single nesting level). -/
def eD : IndexEntry :=
  Status.mkEntry [100, 105, 114, 47, 102, 46, 116, 120, 116] hF 0

/-- Branch name for Head. -/
def mainB : List Nat := [109, 97, 105, 110]

/-- Claim C1: on the specification's own example — staging exactly
`{dir/sub/f.txt: hF, root.txt: hR}` with a Head resolving to a previous
commit — `do_commit` does not produce the trees for `dir/sub`, `dir` and the
root: after hashing the `dir/sub` tree it calls
`directory_entries.get_mut(/repo/dir).unwrap()`, and `/repo/dir` owns no
directly-staged file and is not a key, so the unwrap panics (modelled as
`none`). No commit is created. -/
theorem do_commit_spec_example_panics :
    do_commit rootP [eF, eR] (.branch mainB) [(mainB, hPrev)] [117] [101] [109]
      = none := by
  decide

/-- Claim C8: committing with an empty staging index does not succeed: with no
entries there are no directory keys, no tree is built, and
`trees.get(&repo_root).unwrap()` panics (modelled as `none`) instead of
persisting an empty root tree and a commit. -/
theorem do_commit_empty_index_panics :
    do_commit rootP [] (.branch mainB) [(mainB, hPrev)] [117] [101] [109]
      = none := by
  decide

/-- Supporting evidence (not itself a claim): when every ancestor directory of
a staged file owns a directly-staged file — here `{dir/f.txt, root.txt}` —
`do_commit` succeeds, persists the `dir` tree and the root tree (the root tree
last), the new commit's `tree_id` is the root tree's hash, and its single
parent is the commit id resolved from Head through the Ref table. -/
theorem do_commit_single_level_example :
    (do_commit rootP [eD, eR] (.branch mainB) [(mainB, hPrev)] [117] [101] [109]).map
      (fun r => (r.commit.parent_ids, r.persistedTrees.length,
        r.commit.tree_id == ((r.persistedTrees.getLast?.map Prod.fst).getD ⟨[]⟩))) =
    some ([hPrev], 2, true) := by
  decide

end CommitCmd

namespace Gitqlite

/-- FIPS 180 test vector certifying the SHA-1 embedding:
SHA1("abc") = a9993e364706816aba3e25717850c26c9cd0d89d. -/
theorem sha1_vector_abc :
    sha1 [97, 98, 99] =
      [169, 153, 62, 54, 71, 6, 129, 106, 186, 62,
       37, 113, 120, 80, 194, 108, 156, 208, 216, 157] := by
  decide

/-- SHA1 of the empty message: da39a3ee5e6b4b0d3255bfef95601890afd80709. -/
theorem sha1_vector_empty :
    sha1 [] =
      [218, 57, 163, 238, 94, 107, 75, 13, 50, 85,
       191, 239, 149, 96, 24, 144, 175, 216, 7, 9] := by
  decide

end Gitqlite
